import Mathlib

/-!
Shallow embedding of the batch translation pipeline in
`scripts/translate_ibn_arabi.py`: the OCR-file parser (`parse_ocr_file`),
the natural sort key (`natural_sort_key`), the retrying API wrapper
(`translate_text`), the per-item processor (`process_page`), the batch
runner (`main`-loop over items) and the combiner
(`create_combined_translation`).

Modelling conventions:
  - file contents are Lean `String`s; character-level work is done on
    `List Char` (`String.data`);
  - the regex `===== (page_\d+) =====\n(.*?)(?=\n=====|\Z)` with
    `re.DOTALL` used by `parse_ocr_file` is embedded as an explicit
    left-to-right scanner with the same semantics (the lazy group stops
    at the first position followed by newline-plus-five-equals or at end
    of input); `\d` is modelled as an ASCII digit;
  - the filesystem visible to one run is a record of association lists
    (output files keyed by page id, plus the sets of ids that own a
    metadata file and an error file);
  - network calls are an oracle: a function from attempt number (for the
    retry loop) or from input text (for the batch) to an outcome;
  - `time.sleep` is modelled by recording the requested wait times.
-/

namespace IbnArabi

/-! ### Character-level helpers -/

/-- Drop the literal prefix `p` from `l`, or fail. -/
def litP : List Char → List Char → Option (List Char)
  | [], l => some l
  | _ :: _, [] => none
  | p :: ps, c :: cs => if c = p then litP ps cs else none

/-- Does `l` begin with `p`? -/
def beginsWith (p l : List Char) : Bool :=
  (litP p l).isSome

/-- Five equals signs, the core of the page marker. -/
def eqs5 : List Char := ['=', '=', '=', '=', '=']

/-- Python `str.strip()` on the ASCII whitespace the file format uses:
first drop trailing whitespace, then leading whitespace. -/
def stripWs (l : List Char) : List Char :=
  (((l.reverse.dropWhile Char.isWhitespace).reverse).dropWhile Char.isWhitespace)

/-- Python `str.strip()` lifted to strings. -/
def pyStrip (s : String) : String :=
  String.mk (stripWs s.data)

/-! ### The parser of `parse_ocr_file` (lines 40-61)

The regex is `===== (page_\d+) =====\n(.*?)(?=\n=====|\Z)` with DOTALL,
consumed by `findall`: scan left to right; at each position try to match
the marker `===== page_<digits> =====` followed by a newline; on a match,
the lazy body extends to the first position whose remainder starts with
newline-plus-`=====`, or to the end of input; then scanning resumes after
the body. -/

/-- Match `===== page_<digits> =====\n` at the head of `l`; return the
captured id (`page_` plus the digit run) and the rest of the input. -/
def matchMarker (l : List Char) : Option (List Char × List Char) :=
  match litP "===== page_".data l with
  | none => none
  | some r1 =>
    if r1.takeWhile Char.isDigit = [] then none
    else
      match litP " =====\n".data (r1.dropWhile Char.isDigit) with
      | none => none
      | some r2 => some ("page_".data ++ r1.takeWhile Char.isDigit, r2)

/-- The lookahead `(?=\n=====)`: the lazy body stops just before a newline
that is followed by five equals signs. -/
def stopMark : List Char → Bool
  | [] => false
  | c :: cs => c = '\n' && beginsWith eqs5 cs

/-- Consume the lazy body: everything up to the first stop mark, or the
whole input if no stop mark occurs. Returns (body, rest). -/
def takeBody : List Char → List Char × List Char
  | [] => ([], [])
  | c :: cs =>
    if stopMark (c :: cs) then ([], c :: cs)
    else
      let p := takeBody cs
      (c :: p.1, p.2)

/-- One `findall` pass, fuelled (the fuel only needs to be at least the
input length; `scanB` supplies it). -/
def scanGo : Nat → List Char → List (List Char × List Char)
  | 0, _ => []
  | _ + 1, [] => []
  | fuel + 1, c :: cs =>
    match matchMarker (c :: cs) with
    | some (idc, rest) =>
      let tb := takeBody rest
      (idc, tb.1) :: scanGo fuel tb.2
    | none => scanGo fuel cs

/-- All raw regex matches of the page pattern in `l`, in order. -/
def scanB (l : List Char) : List (List Char × List Char) :=
  scanGo l.length l

/-- The body of `parse_ocr_file` once the file contents have been read:
each match contributes `(page_id, page_text.strip())`. -/
def parse_ocr_content (s : String) : List (String × String) :=
  (scanB s.data).map (fun p => (String.mk p.1, String.mk (stripWs p.2)))

/-- Model of `parse_ocr_file` including the surrounding try/except: a
file that cannot be opened or decoded is an `Except.error`, caught and
turned into the empty list (nothing is raised to the caller). -/
def parse_ocr_file (readResult : Except String String) : List (String × String) :=
  match readResult with
  | Except.error _ => []
  | Except.ok content => parse_ocr_content content

/-! ### Well-formed inputs (the vocabulary the parsing claims use)

A well-formed input for both the OCR file and the combined file is a
concatenation of blocks, each a marker line `===== page_<digits> =====`
followed by a newline-terminated body. The conditions below are what
the amended parsing claims quantify over: the digit run is nonempty, and
no line of a body begins with five equals signs (otherwise the lazy body
of the regex stops early or swallows a marker). -/

/-- No occurrence of newline-plus-`=====` anywhere in `l` (equivalently:
no line after the first begins with five equals signs). -/
def noNlEqs : List Char → Bool
  | [] => true
  | c :: cs => !(c = '\n' && beginsWith eqs5 cs) && noNlEqs cs

/-- No line of the body (including the first) begins with `=====`. -/
def bodyOk (b : List Char) : Bool :=
  noNlEqs b && !(beginsWith eqs5 b)

/-- A nonempty ASCII digit run. -/
def isPageDigits (ds : String) : Bool :=
  !ds.data.isEmpty && ds.data.all Char.isDigit

/-- An id of the shape `page_<digits>` as produced by the parser and
consumed by the combiner. -/
def isPageId (s : String) : Bool :=
  match litP "page_".data s.data with
  | some ds => !ds.isEmpty && ds.all Char.isDigit
  | none => false

/-- One well-formed block: the marker line for `page_<ds>` and a body
terminated by a newline. -/
def renderBlock (ds body : String) : String :=
  "===== page_" ++ ds ++ " =====\n" ++ body ++ "\n"

/-- A well-formed input: the concatenation of its blocks. -/
def renderBlocks : List (String × String) → String
  | [] => ""
  | b :: rest => renderBlock b.1 b.2 ++ renderBlocks rest

/-! ### `natural_sort_key` (lines 28-30) and the sort in the combiner

Python: `[int(text) if text.isdigit() else text.lower() for text in
re.split(_nsre, s)]` where `_nsre = ([0-9]+)`. `re.split` with a capture
group produces an alternating list: a (possibly empty) digit-free piece,
a maximal digit run, a digit-free piece, ... always starting and ending
with a digit-free piece. Even positions therefore always hold lowered
strings and odd positions integers, so Python never compares an int with
a str when comparing two such keys; the cross-constructor case of
`nkLt` below is unreachable for keys produced by `natKey`. Digits and
lowercasing are modelled on ASCII. -/

/-- One element of a natural sort key. -/
inductive NK where
  | str (s : List Char)
  | num (n : Nat)
deriving DecidableEq

/-- Value of a digit run. -/
def digitsVal (l : List Char) : Nat :=
  l.foldl (fun a c => a * 10 + (c.toNat - 48)) 0

/-- Lowercase a digit-free piece. -/
def lowerPiece (l : List Char) : List Char :=
  l.map Char.toLower

/-- Python string `<` on code points. -/
def strLtB : List Char → List Char → Bool
  | [], [] => false
  | [], _ :: _ => true
  | _ :: _, [] => false
  | a :: as_, b :: bs => a < b || (a = b && strLtB as_ bs)

/-- Python `<` on key elements (same-constructor comparisons only ever
arise from `natKey`; the cross cases are arbitrary). -/
def nkLt : NK → NK → Bool
  | NK.str a, NK.str b => strLtB a b
  | NK.num a, NK.num b => a < b
  | _, _ => false

/-- Python list `<` (lexicographic, shorter prefix first). -/
def keyLtB : List NK → List NK → Bool
  | [], [] => false
  | [], _ :: _ => true
  | _ :: _, [] => false
  | a :: as_, b :: bs => nkLt a b || (a = b && keyLtB as_ bs)

/-- The alternating split-and-map of `natural_sort_key`, on characters.
Fuelled so that the recursion is structural (each step consumes at least
the head of the maximal digit run, so any fuel above the input length is
enough; `natural_sort_key` supplies `length + 1`). -/
def natKeyGo : Nat → List Char → List NK
  | 0, _ => []
  | fuel + 1, l =>
    let nd := l.takeWhile (fun c => !c.isDigit)
    match l.dropWhile (fun c => !c.isDigit) with
    | [] => [NK.str (lowerPiece nd)]
    | c :: cs =>
      NK.str (lowerPiece nd) :: NK.num (digitsVal ((c :: cs).takeWhile Char.isDigit)) ::
        natKeyGo fuel ((c :: cs).dropWhile Char.isDigit)

/-- `natural_sort_key` on a string. -/
def natural_sort_key (s : String) : List NK :=
  natKeyGo (s.data.length + 1) s.data

/-- Stable insertion for the sort below: keep walking past strictly
smaller elements, insert before the first element not strictly smaller
(equal keys keep their original relative order, as Python sort does). -/
def nsInsert (x : String) : List String → List String
  | [] => [x]
  | y :: ys =>
    if keyLtB (natural_sort_key y) (natural_sort_key x) then y :: nsInsert x ys
    else x :: y :: ys

/-- `list.sort(key=natural_sort_key)`: a stable sort by the natural key. -/
def sortNat : List String → List String
  | [] => []
  | x :: xs => nsInsert x (sortNat xs)

/-! ### `translate_text` (lines 63-114)

The remote API is an oracle mapping the attempt number to an outcome;
the four outcomes correspond to a normal response, `RateLimitError`,
`APIError` and any other exception. The loop `for attempt in
range(max_retries)` is embedded with the remaining iteration count as
the structural argument, carrying the current `attempt`; at every call
`remaining + attempt = max_retries`, so the Python guard
`attempt < max_retries - 1` is exactly `remaining > 1`. A run records
the outcome, the sequence of `time.sleep` durations, and the number of
attempts (API calls) made. -/

/-- Outcome of one API call attempt. -/
inductive ApiOutcome where
  | success (text : String)
  | rateLimit
  | apiError (e : String)
  | otherError (e : String)
deriving DecidableEq

/-- How a failed `translate_text` call terminates. -/
inductive TransErr where
  | apiErr (e : String)
  | otherErr (e : String)
  | exhausted
deriving DecidableEq

/-- Observable behaviour of one `translate_text` call. -/
structure TxRun where
  result : Except TransErr String
  waits : List Nat
  attempts : Nat

/-- The retry loop of `translate_text`. -/
def translate_loop (api : Nat → ApiOutcome) (retry_delay : Nat) :
    Nat → Nat → TxRun
  | 0, _ =>
    ⟨Except.error TransErr.exhausted, [], 0⟩
  | remaining + 1, attempt =>
    match api attempt with
    | ApiOutcome.success t => ⟨Except.ok t, [], 1⟩
    | ApiOutcome.rateLimit =>
      let r := translate_loop api retry_delay remaining (attempt + 1)
      ⟨r.result, retry_delay * 2 ^ attempt :: r.waits, r.attempts + 1⟩
    | ApiOutcome.apiError e =>
      if remaining = 0 then ⟨Except.error (TransErr.apiErr e), [], 1⟩
      else
        let r := translate_loop api retry_delay remaining (attempt + 1)
        ⟨r.result, retry_delay * 2 ^ attempt :: r.waits, r.attempts + 1⟩
    | ApiOutcome.otherError e => ⟨Except.error (TransErr.otherErr e), [], 1⟩

/-- `translate_text` with its retry loop; defaults are
`max_retries = 3`, `retry_delay = 2`. -/
def translate_text (api : Nat → ApiOutcome) (max_retries retry_delay : Nat) : TxRun :=
  translate_loop api retry_delay max_retries 0

/-! ### The filesystem model, `process_page` (lines 116-169) and the
batch loop plus summary of `main` (lines 236-281)

Output files live in one directory: `<page_id>.txt` holds the
translation, `<page_id>.meta.json` the metadata, and
`errors/<page_id>.error.json` the error record. The model keeps the
output files as an association list from page id to contents (writing a
fresh file appends, overwriting replaces in place), and the metadata and
error files as the lists of ids that own one (none of the claims reads
their contents, whose timestamp field is wall-clock dependent anyway).
Write failures (disk full, permissions, encoding) are injected through
two parameters. The translation write is the compound statement
`with open(output_filepath, 'w') as file: file.write(translation)`
(lines 132-133): `open` may itself raise (no file appears), but once
`open` succeeds the file exists — created or truncated — so a failure
inside `write` leaves a partial (possibly empty) output file behind;
`OutW` has one constructor per case, carrying in the mid-write case
whatever prefix reached the disk. `metaOk` covers the metadata write of
lines 144-146. -/

/-- Outcome of the output-file write of lines 132-133. -/
inductive OutW where
  | ok
  | openFail
  | writeFail (written : String)
deriving DecidableEq

/-- Did the output write fail after `open` had already created the
file? -/
def isWriteFail : OutW → Bool
  | OutW.writeFail _ => true
  | _ => false

/-- Association-list lookup (first match), the model of reading or
stat-ing a file by name. -/
def getA {α : Type} (l : List (String × α)) (k : String) : Option α :=
  match l with
  | [] => none
  | p :: rest => if p.1 = k then some p.2 else getA rest k

/-- Association-list write: replace in place when the file exists,
append otherwise. -/
def setA {α : Type} (l : List (String × α)) (k : String) (v : α) : List (String × α) :=
  match l with
  | [] => [(k, v)]
  | p :: rest => if p.1 = k then (k, v) :: rest else p :: setA rest k v

/-- Record a file name in a set of names (creating the file if absent,
overwriting—a no-op on the name set—if present). -/
def addId (l : List String) (k : String) : List String :=
  if k ∈ l then l else l ++ [k]

/-- The text a successful transform returned (used to describe the
output files a batch writes; meaningless on errors). -/
def getOk : Except TransErr String → String
  | Except.ok s => s
  | Except.error _ => ""

/-- The run-visible state of the output directory. -/
structure FS where
  outputs : List (String × String)
  metas : List String
  errors : List String
deriving DecidableEq

/-- Per-item processing status, the strings returned by `process_page`. -/
inductive St where
  | completed
  | skipped
  | failed
deriving DecidableEq

/-- What one `process_page` call returns, plus whether it invoked the
Remote Transform Client at all. -/
structure PResult where
  id : String
  status : St
  apiCalled : Bool
deriving DecidableEq

/-- The per-item result of an all-good batch: Skipped when the output
artifact already exists (condition `c`), Completed otherwise (used to
state the batch characterisation lemmas below). -/
def goodRes (c : String × String → Bool) (p : String × String) : PResult :=
  if c p then ⟨p.1, St.skipped, false⟩ else ⟨p.1, St.completed, true⟩

/-- `process_page` for one item: `trRes` is the outcome of
`translate_text` on the item text (only consulted when the skip check
fails, which `apiCalled` records). A mid-write output failure
(`OutW.writeFail w`) leaves the file `open` created, holding the
prefix `w`, and lands in the `except` block like every other failure. -/
def process_page (trRes : Except TransErr String) (page_id : String)
    (force : Bool) (outW : OutW) (metaOk : Bool) (fs : FS) : PResult × FS :=
  if (getA fs.outputs page_id).isSome && !force then
    (⟨page_id, St.skipped, false⟩, fs)
  else
    match trRes with
    | Except.ok t =>
      match outW with
      | OutW.ok =>
        let fs1 : FS := { fs with outputs := setA fs.outputs page_id t }
        if metaOk then
          (⟨page_id, St.completed, true⟩, { fs1 with metas := addId fs1.metas page_id })
        else
          (⟨page_id, St.failed, true⟩, { fs1 with errors := addId fs1.errors page_id })
      | OutW.openFail =>
        (⟨page_id, St.failed, true⟩, { fs with errors := addId fs.errors page_id })
      | OutW.writeFail w =>
        (⟨page_id, St.failed, true⟩,
          { fs with outputs := setA fs.outputs page_id w,
                    errors := addId fs.errors page_id })
    | Except.error _ =>
      (⟨page_id, St.failed, true⟩, { fs with errors := addId fs.errors page_id })

/-- The batch loop of `main`: `executor.map(process_page, process_args)`
over the parsed items, in list order (with `workers = 1` semantics; all
per-item writes succeed). `tr` maps an item text to the outcome of
`translate_text` on it. -/
def runBatch (tr : String → Except TransErr String) (force : Bool) :
    List (String × String) → FS → List PResult × FS
  | [], fs => ([], fs)
  | (pid, txt) :: rest, fs =>
    let r := process_page (tr txt) pid force OutW.ok true fs
    let rs := runBatch tr force rest r.2
    (r.1 :: rs.1, rs.2)

/-- The counts and id-to-status map that `main` logs and stores in
`translation_summary.json`. -/
structure RunSummary where
  total : Nat
  completed : Nat
  skipped : Nat
  failed : Nat
  results : List (String × St)
deriving DecidableEq

/-- Build the summary exactly as `main` does (lines 252-273). -/
def summarize (items : List (String × String)) (res : List PResult) : RunSummary :=
  { total := items.length
    completed := (res.filter (fun r => r.status = St.completed)).length
    skipped := (res.filter (fun r => r.status = St.skipped)).length
    failed := (res.filter (fun r => r.status = St.failed)).length
    results := res.map (fun r => (r.id, r.status)) }

/-! ### `create_combined_translation` (lines 283-314) -/

/-- Python `filename.replace(".txt", "")`: remove every occurrence of
`.txt`, scanning left to right. -/
def replTxt : List Char → List Char
  | '.' :: 't' :: 'x' :: 't' :: rest => replTxt rest
  | c :: cs => c :: replTxt cs
  | [] => []

/-- Concatenate a list of strings. -/
def concatAll : List String → String
  | [] => ""
  | s :: rest => s ++ concatAll rest

/-- Does the file name pass the filter of line 290: starts with `page_`,
ends with `.txt` (the redundant `.meta.json` exclusion follows from the
`.txt` suffix)? -/
def combineFilter (f : String) : Bool :=
  beginsWith "page_".data f.data && beginsWith ".txt".data.reverse f.data.reverse

/-- The sorted file-name list the combiner iterates over. -/
def combineFiles (fs : FS) : List String :=
  sortNat ((fs.outputs.map (fun p => p.1 ++ ".txt")).filter combineFilter)

/-- One block written to `combined_translation.txt` for file `f`: the
delimiter line with the id (`f` minus `.txt`), a blank line, the file
contents, and a blank line. -/
def combineBlock (fs : FS) (f : String) : String :=
  "===== " ++ String.mk (replTxt f.data) ++ " =====\n\n" ++
    (getA fs.outputs (String.mk (replTxt f.data))).getD "" ++ "\n\n"

/-- `create_combined_translation`: `none` models the early return with
only a warning when there is nothing to combine; `some c` models writing
the file with contents `c`. -/
def create_combined_translation (fs : FS) : Option String :=
  let files := combineFiles fs
  if files.isEmpty then none
  else some (concatAll (files.map (combineBlock fs)))

/-- End of `main` (lines 242-281): run the batch, summarise, and create
the combined file only when it was requested and this run completed at
least one page. -/
def run_main (items : List (String × String)) (tr : String → Except TransErr String)
    (force createCombined : Bool) (fs0 : FS) :
    List PResult × FS × RunSummary × Option String :=
  let rb := runBatch tr force items fs0
  let summary := summarize items rb.1
  let comb :=
    if createCombined && decide (0 < summary.completed) then
      create_combined_translation rb.2
    else none
  (rb.1, rb.2, summary, comb)

/-! ## Theorems -/

/-! ### Retry and backoff: claims C1, C4, C5 -/

/-- One unfolding of the retry loop, stated as an equation so that the
recursive occurrence is not unfolded any further during rewriting. -/
theorem translate_loop_succ (api : Nat → ApiOutcome) (d rem a : Nat) :
    translate_loop api d (rem + 1) a =
      match api a with
      | ApiOutcome.success t => ⟨Except.ok t, [], 1⟩
      | ApiOutcome.rateLimit =>
        let r := translate_loop api d rem (a + 1)
        ⟨r.result, d * 2 ^ a :: r.waits, r.attempts + 1⟩
      | ApiOutcome.apiError e =>
        if rem = 0 then ⟨Except.error (TransErr.apiErr e), [], 1⟩
        else
          let r := translate_loop api d rem (a + 1)
          ⟨r.result, d * 2 ^ a :: r.waits, r.attempts + 1⟩
      | ApiOutcome.otherError e => ⟨Except.error (TransErr.otherErr e), [], 1⟩ := rfl

/-- Helper: when every attempt raises `APIError`, the loop from attempt
`a` with `rem + 1` iterations left sleeps `d * 2 ^ i` for
`i = a, ..., a + rem - 1` and re-raises after the final attempt. -/
theorem translate_loop_all_apiError (api : Nat → ApiOutcome) (e : String) (d : Nat)
    (hapi : ∀ i, api i = ApiOutcome.apiError e) :
    ∀ rem a, translate_loop api d (rem + 1) a =
      ⟨Except.error (TransErr.apiErr e),
        (List.range' a rem).map (fun i => d * 2 ^ i), rem + 1⟩ := by
  intro rem
  induction rem with
  | zero =>
    intro a
    rw [translate_loop_succ, hapi a]
    rfl
  | succ k ih =>
    intro a
    rw [translate_loop_succ, hapi a]
    simp only [Nat.succ_ne_zero, if_false, ih (a + 1)]
    simp [List.range'_succ]

/-- C1: with the default settings (`max_retries = 3`,
`retry_delay = 2`), a call whose underlying API raises `RateLimitError`
on exactly the first two attempts and succeeds on the third returns the
successful result after sleeping `2 * 2 ^ 0 = 2` seconds before the
second attempt and `2 * 2 ^ 1 = 4` seconds before the third. -/
theorem c1_rate_limit_retry_backoff (api : Nat → ApiOutcome) (s : String)
    (h0 : api 0 = ApiOutcome.rateLimit) (h1 : api 1 = ApiOutcome.rateLimit)
    (h2 : api 2 = ApiOutcome.success s) :
    translate_text api 3 2 = ⟨Except.ok s, [2, 4], 3⟩ := by
  simp [translate_text, translate_loop, h0, h1, h2]

/-- Witness for C1 at a concrete API behaviour. -/
theorem c1_rate_limit_retry_backoff_witness :
    translate_text
        (fun i => if i < 2 then ApiOutcome.rateLimit else ApiOutcome.success "ok")
        3 2 = ⟨Except.ok "ok", [2, 4], 3⟩ :=
  c1_rate_limit_retry_backoff _ "ok" rfl rfl rfl

/-- C4: when every attempt raises a generic `APIError`, the client
sleeps `retry_delay * 2 ^ attempt` between attempts (the same schedule
as for rate limiting), makes exactly `max_retries` attempts, and
re-raises the API error after the final attempt. -/
theorem c4_transient_api_error_exhaustion (api : Nat → ApiOutcome) (e : String)
    (max_retries retry_delay : Nat)
    (hapi : ∀ i, api i = ApiOutcome.apiError e) (hmr : 1 ≤ max_retries) :
    translate_text api max_retries retry_delay =
      ⟨Except.error (TransErr.apiErr e),
        (List.range (max_retries - 1)).map (fun i => retry_delay * 2 ^ i),
        max_retries⟩ := by
  obtain ⟨k, rfl⟩ : ∃ k, max_retries = k + 1 :=
    ⟨max_retries - 1, (Nat.succ_pred_eq_of_pos hmr).symm⟩
  simp [translate_text, translate_loop_all_apiError api e retry_delay hapi k 0,
    List.range_eq_range']

/-- Witness for C4 at the default settings. -/
theorem c4_transient_api_error_exhaustion_witness :
    translate_text (fun _ => ApiOutcome.apiError "boom") 3 2 =
      ⟨Except.error (TransErr.apiErr "boom"), [2, 4], 3⟩ := by
  rw [c4_transient_api_error_exhaustion (fun _ => ApiOutcome.apiError "boom") "boom" 3 2
    (fun _ => rfl) (by decide)]
  rfl

/-- C5: an error that is neither a rate limit nor an `APIError` is
propagated from the first attempt: exactly one attempt, no sleeps. -/
theorem c5_fatal_error_no_retry (api : Nat → ApiOutcome) (e : String)
    (max_retries retry_delay : Nat)
    (h0 : api 0 = ApiOutcome.otherError e) (hmr : 1 ≤ max_retries) :
    translate_text api max_retries retry_delay =
      ⟨Except.error (TransErr.otherErr e), [], 1⟩ := by
  obtain ⟨k, rfl⟩ : ∃ k, max_retries = k + 1 :=
    ⟨max_retries - 1, (Nat.succ_pred_eq_of_pos hmr).symm⟩
  simp [translate_text, translate_loop, h0]

/-- Witness for C5. -/
theorem c5_fatal_error_no_retry_witness :
    translate_text (fun _ => ApiOutcome.otherError "bad key") 3 2 =
      ⟨Except.error (TransErr.otherErr "bad key"), [], 1⟩ :=
  c5_fatal_error_no_retry _ "bad key" 3 2 rfl (by decide)

/-! ### Parse failure containment: claim C10 -/

/-- C10: when the input file cannot be opened or decoded the exception
is caught inside `parse_ocr_file` (the model is a total function, so
nothing propagates) and the empty item list is returned, which is
exactly the zero-item condition `main` aborts on. -/
theorem c10_unreadable_file_yields_empty (e : String) :
    parse_ocr_file (Except.error e) = [] := rfl

/-! ### Association-list facts used below -/

theorem getA_setA_self {α : Type} (l : List (String × α)) (k : String) (v : α) :
    getA (setA l k v) k = some v := by
  induction l with
  | nil => simp [getA, setA]
  | cons p rest ih =>
    by_cases h : p.1 = k
    · simp [getA, setA, h]
    · simp [getA, setA, h, ih]

theorem getA_setA_other {α : Type} (l : List (String × α)) (k k' : String) (v : α)
    (h : k' ≠ k) : getA (setA l k v) k' = getA l k' := by
  induction l with
  | nil => simp [getA, setA, Ne.symm h]
  | cons p rest ih =>
    by_cases hp : p.1 = k
    · simp [getA, setA, hp, Ne.symm h]
    · simp [getA, setA, hp, ih]

theorem mem_addId_self (l : List String) (k : String) : k ∈ addId l k := by
  by_cases h : k ∈ l <;> simp [addId, h]

theorem mem_addId_iff (l : List String) (k k' : String) :
    k' ∈ addId l k ↔ k' ∈ l ∨ k' = k := by
  by_cases h : k ∈ l
  · simp [addId, h]
    intro hk
    rw [hk]
    exact h
  · simp [addId, h, or_comm]

/-! ### Skip check and idempotent re-run: claim C2 -/

/-- Helper: a batch over items whose output files all already exist,
run with `force = false`, reports Skipped for every item in order,
invokes the Remote Transform Client for none of them, and returns the
filesystem unchanged. -/
theorem runBatch_all_present (tr : String → Except TransErr String) :
    ∀ (items : List (String × String)) (fs : FS),
      (∀ p ∈ items, (getA fs.outputs p.1).isSome = true) →
      runBatch tr false items fs =
        (items.map (fun p => ⟨p.1, St.skipped, false⟩), fs) := by
  intro items
  induction items with
  | nil => intro fs _; rfl
  | cons q rest ih =>
    intro fs h
    have hq : (getA fs.outputs q.1).isSome = true := h q (List.mem_cons_self q rest)
    obtain ⟨pid, txt⟩ := q
    simp only [runBatch, process_page, hq, Bool.not_false, Bool.and_true, if_pos]
    rw [ih fs (fun p hp => h p (List.mem_cons_of_mem _ hp))]
    simp

/-- C2: an item whose output artifact already exists is Skipped with
`force = false`, without invoking the Remote Transform Client and
without touching the filesystem (first conjunct); consequently a second
batch run over the same items, after a first run that left every item
with an output artifact, reports Skipped everywhere, calls the client
for no item, and leaves the filesystem — in particular every output
artifact — byte-for-byte unchanged (second conjunct). -/
theorem c2_skip_and_rerun_idempotent :
    (∀ (trRes : Except TransErr String) (pid : String) (outW : OutW) (metaOk : Bool) (fs : FS),
      (getA fs.outputs pid).isSome = true →
      process_page trRes pid false outW metaOk fs = (⟨pid, St.skipped, false⟩, fs)) ∧
    (∀ (items : List (String × String)) (tr1 tr2 : String → Except TransErr String)
        (force1 : Bool) (fs0 : FS),
      (∀ p ∈ items, (getA ((runBatch tr1 force1 items fs0).2).outputs p.1).isSome = true) →
      runBatch tr2 false items ((runBatch tr1 force1 items fs0).2) =
        (items.map (fun p => ⟨p.1, St.skipped, false⟩),
          (runBatch tr1 force1 items fs0).2)) := by
  constructor
  · intro trRes pid outW metaOk fs h
    simp [process_page, h]
  · intro items tr1 tr2 force1 fs0 h
    exact runBatch_all_present tr2 items _ h

/-- Witness for C2: a one-item batch; the first run completes the item,
the second run skips it and changes nothing. -/
theorem c2_skip_and_rerun_idempotent_witness :
    process_page (Except.ok "new") "page_1" false OutW.ok true ⟨[("page_1", "old")], [], []⟩ =
      (⟨"page_1", St.skipped, false⟩, ⟨[("page_1", "old")], [], []⟩) ∧
    runBatch (fun _ => Except.ok "U") false [("page_1", "t")]
        ((runBatch (fun _ => Except.ok "T") false [("page_1", "t")] ⟨[], [], []⟩).2) =
      ([⟨"page_1", St.skipped, false⟩],
        (runBatch (fun _ => Except.ok "T") false [("page_1", "t")] ⟨[], [], []⟩).2) :=
  ⟨c2_skip_and_rerun_idempotent.1 (Except.ok "new") "page_1" OutW.ok true
      ⟨[("page_1", "old")], [], []⟩ (by decide),
    c2_skip_and_rerun_idempotent.2 [("page_1", "t")] (fun _ => Except.ok "T")
      (fun _ => Except.ok "U") false ⟨[], [], []⟩ (by decide)⟩

/-! ### Output/error artifact exclusivity: claim C7

The claim as stated is false, through two paths into the `except` block
of `process_page` that leave the output file in place:
  - the transform and the output write both succeed and the metadata
    write then fails (lines 144-146): the fully written output file
    stays while the error record is written;
  - the transform succeeds, `open(output_filepath, 'w')` at line 132
    succeeds — creating or truncating the file — and `file.write` then
    fails: the partial (possibly empty) output file stays while the
    error record is written.
In both runs the item ends with both artifacts and a Failed status.
The amended claim restricts exclusivity to invocations in which the
item starts with no artifacts and no write fails after the output file
has come into existence: the transform may fail, or the output `open`
itself may fail (no file appears), or the output and metadata writes
both succeed. -/

/-- Counterexample to C7 as stated, on both failing paths: first a
successful transform and output write followed by a failing metadata
write, then a successful transform whose output write fails after
`open` created the file; either way the item ends with both its output
artifact and its error record. -/
theorem c7_counterexample_meta_write_failure :
    ((getA (process_page (Except.ok "T") "page_1" false OutW.ok false
        ⟨[], [], []⟩).2.outputs "page_1").isSome = true ∧
      "page_1" ∈ (process_page (Except.ok "T") "page_1" false OutW.ok false
        ⟨[], [], []⟩).2.errors ∧
      (process_page (Except.ok "T") "page_1" false OutW.ok false ⟨[], [], []⟩).1.status =
        St.failed) ∧
    ((getA (process_page (Except.ok "T") "page_1" false (OutW.writeFail "") true
        ⟨[], [], []⟩).2.outputs "page_1").isSome = true ∧
      "page_1" ∈ (process_page (Except.ok "T") "page_1" false (OutW.writeFail "") true
        ⟨[], [], []⟩).2.errors ∧
      (process_page (Except.ok "T") "page_1" false (OutW.writeFail "") true
        ⟨[], [], []⟩).1.status = St.failed) := by
  constructor
  · decide
  · decide

/-- C7 amended: for an item that starts the invocation with no output
artifact and no error record, and in which no write fails after the
output file has come into existence — the output write does not fail
mid-write (it either succeeds or its `open` fails, leaving no file) and
the metadata write does not fail — at most one of the output artifact
and the error record exists at the end of the invocation (the transform
may fail and the output `open` may fail; both produce only the error
record). -/
theorem c7_artifact_exclusivity_amended (trRes : Except TransErr String)
    (pid : String) (force : Bool) (outW : OutW) (fs : FS)
    (hout : getA fs.outputs pid = none) (herr : pid ∉ fs.errors)
    (hw : isWriteFail outW = false) :
    ¬((getA (process_page trRes pid force outW true fs).2.outputs pid).isSome = true ∧
      pid ∈ (process_page trRes pid force outW true fs).2.errors) := by
  have hskip : ((getA fs.outputs pid).isSome && !force) = false := by
    simp [hout]
  match trRes with
  | Except.ok t =>
    cases outW with
    | ok =>
      simp [process_page, hskip, herr]
    | openFail =>
      simp [process_page, hskip, hout]
    | writeFail w =>
      simp [isWriteFail] at hw
  | Except.error e =>
    simp [process_page, hskip, hout]

/-- Witness for the amended C7, at a failing transform and at a failing
output `open`. -/
theorem c7_artifact_exclusivity_amended_witness :
    ¬((getA (process_page (Except.error (TransErr.otherErr "x")) "page_1" false OutW.ok true
        ⟨[], [], []⟩).2.outputs "page_1").isSome = true ∧
      "page_1" ∈ (process_page (Except.error (TransErr.otherErr "x")) "page_1" false OutW.ok
        true ⟨[], [], []⟩).2.errors) ∧
    ¬((getA (process_page (Except.ok "T") "page_1" false OutW.openFail true
        ⟨[], [], []⟩).2.outputs "page_1").isSome = true ∧
      "page_1" ∈ (process_page (Except.ok "T") "page_1" false OutW.openFail true
        ⟨[], [], []⟩).2.errors) :=
  ⟨c7_artifact_exclusivity_amended (Except.error (TransErr.otherErr "x")) "page_1"
      false OutW.ok ⟨[], [], []⟩ (by decide) (by decide) (by decide),
    c7_artifact_exclusivity_amended (Except.ok "T") "page_1"
      false OutW.openFail ⟨[], [], []⟩ (by decide) (by decide) (by decide)⟩

/-! ### takeWhile/dropWhile helpers -/

theorem takeWhile_append_all {α : Type} (p : α → Bool) (l1 l2 : List α)
    (h : ∀ c ∈ l1, p c = true) :
    (l1 ++ l2).takeWhile p = l1 ++ l2.takeWhile p := by
  induction l1 with
  | nil => simp
  | cons c cs ih =>
    simp only [List.cons_append, List.takeWhile_cons, h c (List.mem_cons_self c cs)]
    rw [ih (fun x hx => h x (List.mem_cons_of_mem _ hx))]
    simp

theorem dropWhile_append_all {α : Type} (p : α → Bool) (l1 l2 : List α)
    (h : ∀ c ∈ l1, p c = true) :
    (l1 ++ l2).dropWhile p = l2.dropWhile p := by
  induction l1 with
  | nil => simp
  | cons c cs ih =>
    simp only [List.cons_append, List.dropWhile_cons, h c (List.mem_cons_self c cs)]
    exact ih (fun x hx => h x (List.mem_cons_of_mem _ hx))

theorem takeWhile_all {α : Type} (p : α → Bool) (l : List α)
    (h : ∀ c ∈ l, p c = true) : l.takeWhile p = l := by
  have := takeWhile_append_all p l [] h
  simpa using this

theorem takeWhile_nil_of_head_false {α : Type} (p : α → Bool) (c : α) (cs : List α)
    (h : p c = false) : (c :: cs).takeWhile p = [] := by
  simp [List.takeWhile_cons, h]

theorem dropWhile_self_of_head_false {α : Type} (p : α → Bool) (c : α) (cs : List α)
    (h : p c = false) : (c :: cs).dropWhile p = c :: cs := by
  simp [List.dropWhile_cons, h]

/-! ### Natural sort: claim C9 -/

/-- Helper: the natural key of a string made of a digit-free piece, one
digit run, and a digit-free piece, is the three-element alternating key
the Python list comprehension produces. -/
theorem natKeyGo_single_run (pre ds post : List Char) (fuel : Nat)
    (hpre : ∀ c ∈ pre, c.isDigit = false)
    (hds : ds ≠ []) (hds2 : ∀ c ∈ ds, c.isDigit = true)
    (hpost : ∀ c ∈ post, c.isDigit = false) :
    natKeyGo (fuel + 2) (pre ++ ds ++ post) =
      [NK.str (lowerPiece pre), NK.num (digitsVal ds), NK.str (lowerPiece post)] := by
  obtain ⟨d, ds', rfl⟩ : ∃ d ds', ds = d :: ds' := by
    cases ds with
    | nil => exact absurd rfl hds
    | cons d ds' => exact ⟨d, ds', rfl⟩
  have hnd : ∀ c ∈ pre, (fun c => !c.isDigit) c = true := by
    intro c hc; simp [hpre c hc]
  have hd : d.isDigit = true := hds2 d (List.mem_cons_self d ds')
  have hds'2 : ∀ c ∈ ds', c.isDigit = true := fun c hc => hds2 c (List.mem_cons_of_mem _ hc)
  simp only [natKeyGo, List.append_assoc, List.cons_append]
  rw [takeWhile_append_all _ pre _ hnd, dropWhile_append_all _ pre _ hnd]
  rw [takeWhile_nil_of_head_false _ d _ (by simp [hd]),
    dropWhile_self_of_head_false _ d _ (by simp [hd])]
  simp only [List.append_nil]
  rw [show (d :: (ds' ++ post)).takeWhile Char.isDigit = d :: ds' ++ post.takeWhile Char.isDigit by
      rw [show d :: (ds' ++ post) = (d :: ds') ++ post by simp]
      exact takeWhile_append_all _ (d :: ds') post (by
        intro c hc
        rcases List.mem_cons.mp hc with h1 | h2
        · rw [h1]; exact hd
        · exact hds'2 c h2)]
  rw [show (d :: (ds' ++ post)).dropWhile Char.isDigit = post.dropWhile Char.isDigit by
      rw [show d :: (ds' ++ post) = (d :: ds') ++ post by simp]
      exact dropWhile_append_all _ (d :: ds') post (by
        intro c hc
        rcases List.mem_cons.mp hc with h1 | h2
        · rw [h1]; exact hd
        · exact hds'2 c h2)]
  cases post with
  | nil => simp [natKeyGo]
  | cons q qs =>
    rw [takeWhile_nil_of_head_false Char.isDigit q qs (hpost q (List.mem_cons_self q qs)),
      dropWhile_self_of_head_false Char.isDigit q qs (hpost q (List.mem_cons_self q qs))]
    simp only [List.append_nil, natKeyGo]
    rw [takeWhile_all _ (q :: qs) (by intro c hc; simp [hpost c hc])]
    rw [show (q :: qs).dropWhile (fun c => !c.isDigit) = [] by
      have := dropWhile_append_all (fun c => !c.isDigit) (q :: qs) []
        (by intro c hc; simp [hpost c hc])
      simpa using this]

/-- C9: the Combiner sorts artifact names with `natural_sort_key`, which
compares embedded digit runs numerically: the four names of the claim
sort as `item_1, item_2, item_10, item_20` (first conjunct, starting
from their lexicographic order), and in general a name with embedded
integer 2 compares strictly below the same name with embedded integer
10 under the sort key comparison (second conjunct, for any digit-free
surrounding pieces). -/
theorem c9_natural_sort_numeric :
    sortNat ["item_1", "item_10", "item_2", "item_20"] =
      ["item_1", "item_2", "item_10", "item_20"] ∧
    (∀ (pre post : List Char),
      (∀ c ∈ pre, c.isDigit = false) → (∀ c ∈ post, c.isDigit = false) →
      keyLtB (natural_sort_key (String.mk (pre ++ '2' :: post)))
        (natural_sort_key (String.mk (pre ++ '1' :: '0' :: post))) = true) := by
  constructor
  · decide
  · intro pre post hpre hpost
    have h2 : natural_sort_key (String.mk (pre ++ '2' :: post)) =
        [NK.str (lowerPiece pre), NK.num 2, NK.str (lowerPiece post)] := by
      show natKeyGo ((pre ++ '2' :: post).length + 1) (pre ++ '2' :: post) =
        [NK.str (lowerPiece pre), NK.num 2, NK.str (lowerPiece post)]
      have hlen : (pre ++ '2' :: post).length + 1 =
          ((pre ++ '2' :: post).length - 1) + 2 := by
        simp
        omega
      rw [hlen, show pre ++ '2' :: post = pre ++ ['2'] ++ post by simp]
      exact natKeyGo_single_run pre ['2'] post _ hpre (by simp)
        (by intro c hc; simp at hc; rw [hc]; rfl) hpost
    have h10 : natural_sort_key (String.mk (pre ++ '1' :: '0' :: post)) =
        [NK.str (lowerPiece pre), NK.num 10, NK.str (lowerPiece post)] := by
      show natKeyGo ((pre ++ '1' :: '0' :: post).length + 1) (pre ++ '1' :: '0' :: post) =
        [NK.str (lowerPiece pre), NK.num 10, NK.str (lowerPiece post)]
      have hlen : (pre ++ '1' :: '0' :: post).length + 1 =
          ((pre ++ '1' :: '0' :: post).length - 1) + 2 := by
        simp
        omega
      rw [hlen, show pre ++ '1' :: '0' :: post = pre ++ ['1', '0'] ++ post by simp]
      exact natKeyGo_single_run pre ['1', '0'] post _ hpre (by simp)
        (by
          intro c hc
          rcases List.mem_cons.mp hc with h1 | h2
          · rw [h1]; rfl
          · simp at h2; rw [h2]; rfl) hpost
    rw [h2, h10]
    simp [keyLtB, nkLt]

/-- Witness for C9 at `item_2` versus `item_10`. -/
theorem c9_natural_sort_numeric_witness :
    keyLtB (natural_sort_key (String.mk ("item_".data ++ '2' :: [])))
      (natural_sort_key (String.mk ("item_".data ++ '1' :: '0' :: []))) = true :=
  c9_natural_sort_numeric.2 "item_".data [] (by decide) (by decide)

/-! ### Scanner lemmas for the parsing claims -/

theorem litP_self (p : List Char) : ∀ l, litP p (p ++ l) = some l := by
  induction p with
  | nil => intro l; rfl
  | cons c cs ih => intro l; simp [litP, ih]

theorem litP_length (p : List Char) :
    ∀ l r, litP p l = some r → r.length + p.length = l.length := by
  induction p with
  | nil =>
    intro l r h
    simp [litP] at h
    simp [h]
  | cons c cs ih =>
    intro l r h
    cases l with
    | nil => simp [litP] at h
    | cons x xs =>
      by_cases hx : x = c
      · simp [litP, hx] at h
        have := ih xs r h
        simp [List.length_cons]
        omega
      · simp [litP, hx] at h

theorem beginsWith_append_self (p l : List Char) : beginsWith p (p ++ l) = true := by
  simp [beginsWith, litP_self]

theorem matchMarker_nl (l : List Char) : matchMarker ('\n' :: l) = none := by
  simp [matchMarker, litP]

/-- The marker matcher on a rendered marker: the whole marker is
consumed and `page_` plus the digit run is captured. -/
theorem matchMarker_render (ds rest : List Char)
    (hne : ds ≠ []) (hds : ∀ c ∈ ds, c.isDigit = true) :
    matchMarker ("===== page_".data ++ (ds ++ (" =====\n".data ++ rest))) =
      some ("page_".data ++ ds, rest) := by
  obtain ⟨d, ds', rfl⟩ : ∃ d ds', ds = d :: ds' := by
    cases ds with
    | nil => exact absurd rfl hne
    | cons d ds' => exact ⟨d, ds', rfl⟩
  have hsp : " =====\n".data ++ rest = ' ' :: ("=====\n".data ++ rest) := rfl
  have htw : (d :: ds' ++ (" =====\n".data ++ rest)).takeWhile Char.isDigit = d :: ds' := by
    rw [takeWhile_append_all Char.isDigit (d :: ds') _ hds, hsp,
      takeWhile_nil_of_head_false Char.isDigit ' ' _ (by decide)]
    simp
  have hdw : (d :: ds' ++ (" =====\n".data ++ rest)).dropWhile Char.isDigit =
      " =====\n".data ++ rest := by
    rw [dropWhile_append_all Char.isDigit (d :: ds') _ hds, hsp]
    exact dropWhile_self_of_head_false Char.isDigit ' ' _ (by decide)
  simp only [matchMarker, litP_self, htw, hdw]
  simp [litP_self]

/-- Length bookkeeping: the rest returned by `litP` is shorter by the
pattern length. -/
theorem dropWhile_length_le {α : Type} (p : α → Bool) (l : List α) :
    (l.dropWhile p).length ≤ l.length := by
  have h := congrArg List.length (List.takeWhile_append_dropWhile p l)
  simp only [List.length_append] at h
  omega

theorem matchMarker_some_length (l : List Char) (x : List Char × List Char)
    (h : matchMarker l = some x) : x.2.length < l.length := by
  unfold matchMarker at h
  cases h1 : litP "===== page_".data l with
  | none => rw [h1] at h; simp at h
  | some r1 =>
    rw [h1] at h
    simp only at h
    by_cases h2 : r1.takeWhile Char.isDigit = []
    · rw [if_pos h2] at h; simp at h
    · rw [if_neg h2] at h
      cases h3 : litP " =====\n".data (r1.dropWhile Char.isDigit) with
      | none => rw [h3] at h; simp at h
      | some r2 =>
        rw [h3] at h
        simp only [Option.some.injEq] at h
        have hl1 := litP_length _ l r1 h1
        have hl2 := litP_length _ _ r2 h3
        have hl3 : (r1.dropWhile Char.isDigit).length ≤ r1.length :=
          dropWhile_length_le Char.isDigit r1
        have hx : x.2 = r2 := by rw [← h]
        rw [hx]
        have hp1 : ("===== page_".data).length = 11 := rfl
        have hp2 : (" =====\n".data).length = 7 := rfl
        omega

theorem takeBody_cons_go (c : Char) (cs : List Char)
    (h : stopMark (c :: cs) = false) :
    takeBody (c :: cs) = (c :: (takeBody cs).1, (takeBody cs).2) := by
  simp [takeBody, h]

theorem takeBody_length : ∀ l : List Char, (takeBody l).2.length ≤ l.length := by
  intro l
  induction l with
  | nil => simp [takeBody]
  | cons c cs ih =>
    by_cases h : stopMark (c :: cs) = true
    · simp [takeBody, h]
    · rw [takeBody_cons_go c cs (Bool.not_eq_true _ ▸ h)]
      calc (takeBody cs).2.length ≤ cs.length := ih
        _ ≤ (c :: cs).length := by simp

/-- Appending after a newline cannot create a new `=====` prefix (the
pattern contains no newline). -/
theorem beginsWith_append_nl_false (p : List Char) (hp : ∀ c ∈ p, c ≠ '\n') :
    ∀ (xs t : List Char), beginsWith p xs = false →
      beginsWith p (xs ++ '\n' :: t) = false := by
  induction p with
  | nil => intro xs t h; simp [beginsWith, litP] at h
  | cons q ps ih =>
    intro xs t h
    cases xs with
    | nil =>
      simp only [List.nil_append]
      have hq : q ≠ '\n' := hp q (List.mem_cons_self q ps)
      simp only [beginsWith, litP]
      rw [if_neg (fun hh => hq hh.symm)]
      rfl
    | cons x xs' =>
      by_cases hx : x = q
      · subst hx
        simp only [List.cons_append, beginsWith, litP, if_pos rfl] at h ⊢
        exact ih (fun c hc => hp c (List.mem_cons_of_mem _ hc)) xs' t h
      · simp [beginsWith, litP, hx]

/-- When no stop mark occurs anywhere in `l`, the lazy body consumes all
of `l`. -/
theorem takeBody_all (l : List Char) (h : noNlEqs l = true) :
    takeBody l = (l, []) := by
  induction l with
  | nil => rfl
  | cons c cs ih =>
    simp only [noNlEqs, Bool.and_eq_true, Bool.not_eq_true'] at h
    have hstop : stopMark (c :: cs) = false := h.1
    simp [takeBody, hstop, ih h.2]

/-- The lazy body of a block stops exactly at the junction newline when
the body itself contains no newline-plus-`=====` and the continuation
starts with `=====`. -/
theorem takeBody_junction (b t : List Char) (hb : noNlEqs b = true)
    (ht : beginsWith eqs5 t = true) :
    takeBody (b ++ '\n' :: t) = (b, '\n' :: t) := by
  induction b with
  | nil =>
    simp only [List.nil_append]
    have : stopMark ('\n' :: t) = true := by simp [stopMark, ht]
    simp [takeBody, this]
  | cons c b' ih =>
    simp only [noNlEqs, Bool.and_eq_true, Bool.not_eq_true'] at hb
    have hstop : stopMark (c :: (b' ++ '\n' :: t)) = false := by
      simp only [stopMark, Bool.and_eq_false_iff]
      by_cases hc : c = '\n'
      · right
        have hb5 : beginsWith eqs5 b' = false := by
          have := hb.1
          simp only [stopMark] at this ⊢
          simp [hc] at this
          exact this
        exact beginsWith_append_nl_false eqs5 (by decide) b' t hb5
      · left; simp [hc]
    rw [List.cons_append, takeBody_cons_go _ _ hstop, ih hb.2]

/-- A trailing newline cannot create a stop mark. -/
theorem noNlEqs_append_nl (l : List Char) (h : noNlEqs l = true) :
    noNlEqs (l ++ ['\n']) = true := by
  induction l with
  | nil => decide
  | cons c cs ih =>
    simp only [noNlEqs, Bool.and_eq_true, Bool.not_eq_true'] at h
    simp only [List.cons_append, noNlEqs, Bool.and_eq_true, Bool.not_eq_true']
    refine ⟨?_, ih h.2⟩
    by_cases hc : c = '\n'
    · subst hc
      have h5 : beginsWith eqs5 cs = false := by simpa using h.1
      have h6 := beginsWith_append_nl_false eqs5 (by decide) cs [] h5
      simp [h6]
    · simp [hc]

/-- Any fuel at least the input length computes the same scan. -/
theorem scanGo_congr : ∀ fuel, ∀ l : List Char, l.length ≤ fuel →
    scanGo fuel l = scanGo l.length l := by
  intro fuel
  induction fuel using Nat.strong_induction_on with
  | _ fuel ih =>
    intro l hl
    cases fuel with
    | zero =>
      cases l with
      | nil => rfl
      | cons c cs => simp at hl
    | succ f =>
      cases l with
      | nil => rfl
      | cons c cs =>
        have hcs : cs.length ≤ f := by simpa using hl
        cases hm : matchMarker (c :: cs) with
        | some x =>
          obtain ⟨i, rest⟩ := x
          have hrest : rest.length < cs.length + 1 := by
            have := matchMarker_some_length (c :: cs) (i, rest) hm
            simpa using this
          have htb : (takeBody rest).2.length ≤ rest.length := takeBody_length rest
          simp only [scanGo, hm]
          have e1 : scanGo f (takeBody rest).2 = scanGo (takeBody rest).2.length (takeBody rest).2 :=
            ih f (Nat.lt_succ_self f) _ (by omega)
          have e2 : scanGo cs.length (takeBody rest).2 =
              scanGo (takeBody rest).2.length (takeBody rest).2 :=
            ih cs.length (by omega) _ (by omega)
          rw [e1, e2]
        | none =>
          simp only [scanGo, hm]
          have e1 : scanGo f cs = scanGo cs.length cs := ih f (Nat.lt_succ_self f) cs hcs
          have e2 : scanGo cs.length cs = scanGo cs.length cs := rfl
          rw [e1]

/-- Unfolding of `scanB` at a successful marker match. -/
theorem scanB_eq_some (l : List Char) (i rest : List Char)
    (h : matchMarker l = some (i, rest)) :
    scanB l = (i, (takeBody rest).1) :: scanB (takeBody rest).2 := by
  cases l with
  | nil => simp [show matchMarker ([] : List Char) = none from rfl] at h
  | cons c cs =>
    show scanGo (cs.length + 1) (c :: cs) = _
    simp only [scanGo, h]
    have h1 : rest.length < cs.length + 1 := by
      have := matchMarker_some_length (c :: cs) (i, rest) h
      simpa using this
    have h2 : (takeBody rest).2.length ≤ rest.length := takeBody_length rest
    rw [scanGo_congr cs.length (takeBody rest).2 (by omega)]
    rfl

/-- Unfolding of `scanB` when no marker matches at the head. -/
theorem scanB_cons_none (c : Char) (cs : List Char)
    (h : matchMarker (c :: cs) = none) : scanB (c :: cs) = scanB cs := by
  show scanGo (cs.length + 1) (c :: cs) = scanGo cs.length cs
  simp only [scanGo, h]

/-- Structure eta for strings. -/
theorem mkStr_data (s : String) : String.mk s.data = s := rfl

/-- Stripping ignores a trailing newline. -/
theorem stripWs_append_nl (l : List Char) : stripWs (l ++ ['\n']) = stripWs l := by
  have h1 : (l ++ ['\n']).reverse = '\n' :: l.reverse := by simp
  rw [stripWs, stripWs, h1, List.dropWhile_cons]
  simp [show ('\n').isWhitespace = true from rfl]

/-- The central parsing theorem: on a well-formed input — a
concatenation of blocks, each a `===== page_<digits> =====` marker line
and a newline-terminated body none of whose lines begins with `=====` —
the parser returns one `(id, stripped body)` pair per block, in input
order. -/
theorem parse_renderBlocks : ∀ (blocks : List (String × String)),
    (∀ b ∈ blocks, isPageDigits b.1 = true ∧ bodyOk b.2.data = true) →
    parse_ocr_content (renderBlocks blocks) =
      blocks.map (fun b => ("page_" ++ b.1, pyStrip b.2)) := by
  intro blocks
  induction blocks with
  | nil => intro _; rfl
  | cons b rest ih =>
    intro h
    obtain ⟨ds, body⟩ := b
    have hb := h (ds, body) (List.mem_cons_self _ _)
    have hrest : ∀ p ∈ rest, isPageDigits p.1 = true ∧ bodyOk p.2.data = true :=
      fun p hp => h p (List.mem_cons_of_mem _ hp)
    have hne : ds.data ≠ [] := by
      have := hb.1
      simp only [isPageDigits, Bool.and_eq_true, Bool.not_eq_true'] at this
      simpa [List.isEmpty_iff] using this.1
    have hdigits : ∀ c ∈ ds.data, c.isDigit = true := by
      have := hb.1
      simp only [isPageDigits, Bool.and_eq_true, List.all_eq_true] at this
      exact fun c hc => this.2 c hc
    have hnoNl : noNlEqs body.data = true := by
      have := hb.2
      simp only [bodyOk, Bool.and_eq_true] at this
      exact this.1
    have hdata : (renderBlocks ((ds, body) :: rest)).data =
        "===== page_".data ++ (ds.data ++ (" =====\n".data ++
          (body.data ++ '\n' :: (renderBlocks rest).data))) := by
      simp [renderBlocks, renderBlock, String.data_append, List.append_assoc,
        show ("\n" : String).data = ['\n'] from rfl]
    have hmm := matchMarker_render ds.data
      (body.data ++ '\n' :: (renderBlocks rest).data) hne hdigits
    show (scanB (renderBlocks ((ds, body) :: rest)).data).map
        (fun p => (String.mk p.1, String.mk (stripWs p.2))) = _
    rw [hdata, scanB_eq_some _ _ _ hmm]
    cases rest with
    | nil =>
      have hrb : (renderBlocks ([] : List (String × String))).data = [] := rfl
      rw [hrb]
      have htb : takeBody (body.data ++ '\n' :: []) = (body.data ++ ['\n'], []) := by
        have := takeBody_all (body.data ++ ['\n']) (noNlEqs_append_nl _ hnoNl)
        simpa using this
      rw [htb]
      simp only [scanB, List.map_cons, List.map_nil, scanGo]
      rw [stripWs_append_nl]
      have hid : String.mk ("page_".data ++ ds.data) = "page_" ++ ds := by
        rw [← String.data_append, mkStr_data]
      rw [hid]
      rfl
    | cons r rs =>
      have hbeg : beginsWith eqs5 (renderBlocks (r :: rs)).data = true := by
        have hform : (renderBlocks (r :: rs)).data =
            eqs5 ++ (" page_".data ++ (r.1.data ++ (" =====\n".data ++
              (r.2.data ++ '\n' :: (renderBlocks rs).data)))) := by
          simp [renderBlocks, renderBlock, String.data_append, List.append_assoc, eqs5,
            show ("\n" : String).data = ['\n'] from rfl,
            show ("===== page_" : String).data =
              eqs5 ++ " page_".data from rfl]
        rw [hform]
        exact beginsWith_append_self eqs5 _
      have htb : takeBody (body.data ++ '\n' :: (renderBlocks (r :: rs)).data) =
          (body.data, '\n' :: (renderBlocks (r :: rs)).data) :=
        takeBody_junction body.data _ hnoNl hbeg
      rw [htb]
      obtain ⟨c0, cs0, hc0⟩ : ∃ c0 cs0, (renderBlocks (r :: rs)).data = c0 :: cs0 := by
        cases hx : (renderBlocks (r :: rs)).data with
        | nil =>
          exfalso
          have : beginsWith eqs5 ([] : List Char) = false := rfl
          rw [hx] at hbeg
          rw [this] at hbeg
          exact Bool.false_ne_true hbeg
        | cons c0 cs0 => exact ⟨c0, cs0, rfl⟩
      rw [hc0, show ('\n' : Char) :: c0 :: cs0 = ('\n' :: c0 :: cs0 : List Char) from rfl]
      rw [scanB_cons_none '\n' (c0 :: cs0) (matchMarker_nl _), ← hc0]
      simp only [List.map_cons]
      have htl : (scanB (renderBlocks (r :: rs)).data).map
          (fun p => (String.mk p.1, String.mk (stripWs p.2))) =
          (r :: rs).map (fun b => ("page_" ++ b.1, pyStrip b.2)) := ih hrest
      rw [htl]
      have hid : String.mk ("page_".data ++ ds.data) = "page_" ++ ds := by
        rw [← String.data_append, mkStr_data]
      rw [hid]
      rfl

/-- When no position of the input matches the marker pattern, the scan
finds nothing. -/
theorem scanGo_no_marker : ∀ (fuel : Nat) (l : List Char),
    (∀ t ∈ l.tails, matchMarker t = none) → scanGo fuel l = [] := by
  intro fuel
  induction fuel with
  | zero => intro l _; rfl
  | succ f ih =>
    intro l h
    cases l with
    | nil => rfl
    | cons c cs =>
      have hc : matchMarker (c :: cs) = none := by
        apply h
        rw [List.tails_cons]
        exact List.mem_cons_self _ _
      simp only [scanGo, hc]
      exact ih cs (fun t ht => h t (by rw [List.tails_cons]; exact List.mem_cons_of_mem _ ht))

/-! ### Claim C6: the Work-Item Source parser

The claim as stated is false. A block with an empty body whose marker
line is directly followed by the next marker line is well formed in the
sense of the claim (`===== <id> =====` line, body running to the next
such line), yet the regex — having consumed the newline that terminates
the first marker line — cannot see the newline its lookahead `\n=====`
needs, so the lazy body swallows the second marker: the input
`===== page_1 =====\n===== page_2 =====\nhello` yields ONE item whose
body contains the second marker line, not two items. (Ids not matching
`page_<digits>` are likewise not matched at all.) The amended claim
quantifies over inputs that are concatenations of blocks
`===== page_<digits> =====\n<body>\n` with nonempty digit runs and no
body line beginning with `=====`. -/

/-- Counterexample to C6 as stated: two well-formed adjacent blocks
(the first with an empty body) parse to a single garbled item. -/
theorem c6_counterexample_adjacent_markers :
    parse_ocr_content "===== page_1 =====\n===== page_2 =====\nhello" =
      [("page_1", "===== page_2 =====\nhello")] ∧
    parse_ocr_content "===== page_1 =====\n===== page_2 =====\nhello" ≠
      [("page_1", ""), ("page_2", "hello")] := by
  constructor
  · decide
  · decide

/-- C6 amended: for every input that is a concatenation of N blocks of
the form `===== page_<digits> =====` newline body newline, with a
nonempty digit run and no body line beginning with `=====`, the parser
returns exactly N (id, body) items in file order with each body trimmed
of surrounding whitespace (first conjunct); an input in which the
marker pattern matches at no position yields 0 items (second
conjunct). -/
theorem c6_parse_wellformed_blocks :
    (∀ (blocks : List (String × String)),
      (∀ b ∈ blocks, isPageDigits b.1 = true ∧ bodyOk b.2.data = true) →
      parse_ocr_content (renderBlocks blocks) =
        blocks.map (fun b => ("page_" ++ b.1, pyStrip b.2))) ∧
    (∀ s : String, (∀ t ∈ s.data.tails, matchMarker t = none) →
      parse_ocr_content s = []) := by
  refine ⟨parse_renderBlocks, ?_⟩
  intro s h
  show (scanB s.data).map _ = _
  rw [scanB, scanGo_no_marker s.data.length s.data h]
  rfl

/-- Witness for the amended C6: a two-block input parses to its two
items; an input with no marker parses to nothing. -/
theorem c6_parse_wellformed_blocks_witness :
    parse_ocr_content (renderBlocks [("1", " alpha "), ("2", "beta")]) =
      [("page_1", "alpha"), ("page_2", "beta")] ∧
    parse_ocr_content "no markers here" = [] := by
  constructor
  · rw [c6_parse_wellformed_blocks.1 [("1", " alpha "), ("2", "beta")] (by decide)]
    decide
  · exact c6_parse_wellformed_blocks.2 "no markers here" (by decide)

/-! ### Support for the combine/parse round trip (claim C8) -/

theorem litP_eq_append (p : List Char) :
    ∀ l r, litP p l = some r → l = p ++ r := by
  induction p with
  | nil =>
    intro l r h
    simp [litP] at h
    simp [h]
  | cons c cs ih =>
    intro l r h
    cases l with
    | nil => simp [litP] at h
    | cons x xs =>
      by_cases hx : x = c
      · simp only [litP, hx, if_pos rfl] at h
        rw [List.cons_append, hx, ih xs r h]
      · simp [litP, hx] at h

theorem getA_some_mem {α : Type} :
    ∀ (l : List (String × α)) (k : String) (v : α), getA l k = some v → (k, v) ∈ l := by
  intro l
  induction l with
  | nil => intro k v h; simp [getA] at h
  | cons p rest ih =>
    intro k v h
    by_cases hp : p.1 = k
    · rw [getA, if_pos hp] at h
      have hkv : (k, v) = p := by
        rw [← hp, ← Option.some.inj h]
      rw [hkv]
      exact List.mem_cons_self _ _
    · rw [getA, if_neg hp] at h
      exact List.mem_cons_of_mem _ (ih k v h)

theorem dropWhile_head_false {α : Type} (p : α → Bool) :
    ∀ (l : List α) (x : α) (xs : List α), l.dropWhile p = x :: xs → p x = false := by
  intro l
  induction l with
  | nil => intro x xs h; simp at h
  | cons c cs ih =>
    intro x xs h
    rw [List.dropWhile_cons] at h
    by_cases hc : p c = true
    · rw [if_pos hc] at h
      exact ih x xs h
    · rw [if_neg hc] at h
      injection h with h1 _
      rw [← h1]
      exact Bool.not_eq_true _ ▸ hc

/-- Stripping ignores a leading newline. -/
theorem stripWs_cons_nl (l : List Char) : stripWs ('\n' :: l) = stripWs l := by
  have h1 : ('\n' :: l).reverse = l.reverse ++ ['\n'] := by simp
  rw [stripWs, stripWs, h1]
  cases hd : l.reverse.dropWhile Char.isWhitespace with
  | nil =>
    have hall : ∀ x ∈ l.reverse, Char.isWhitespace x = true :=
      List.dropWhile_eq_nil_iff.mp hd
    rw [dropWhile_append_all Char.isWhitespace l.reverse ['\n'] hall]
    simp [show ('\n').isWhitespace = true from rfl]
  | cons x xs =>
    have hx : Char.isWhitespace x = false := dropWhile_head_false _ l.reverse x xs hd
    have hsplit : l.reverse.takeWhile Char.isWhitespace ++ (x :: xs) = l.reverse := by
      rw [← hd]
      exact List.takeWhile_append_dropWhile Char.isWhitespace l.reverse
    have h2 : (l.reverse ++ ['\n']).dropWhile Char.isWhitespace = x :: (xs ++ ['\n']) := by
      rw [← hsplit, List.append_assoc]
      rw [dropWhile_append_all Char.isWhitespace _ _
        (fun c hc => List.mem_takeWhile_imp hc)]
      rw [List.cons_append]
      exact dropWhile_self_of_head_false Char.isWhitespace x _ hx
    rw [h2]
    have h3 : (x :: (xs ++ ['\n'])).reverse = '\n' :: (xs.reverse ++ [x]) := by simp
    rw [h3, List.dropWhile_cons]
    simp [show ('\n').isWhitespace = true from rfl]

/-- Stripping removes the blank-line padding the combiner adds. -/
theorem pyStrip_pad (c : String) : pyStrip ("\n" ++ c ++ "\n") = pyStrip c := by
  have hdata : ("\n" ++ c ++ "\n").data = '\n' :: (c.data ++ ['\n']) := by
    simp [String.data_append, show ("\n" : String).data = ['\n'] from rfl]
  rw [pyStrip, pyStrip, hdata, stripWs_cons_nl, stripWs_append_nl]

/-- The blank-line padding keeps a body acceptable to the parser. -/
theorem bodyOk_pad (b : List Char) (h : bodyOk b = true) :
    bodyOk ('\n' :: (b ++ ['\n'])) = true := by
  simp only [bodyOk, Bool.and_eq_true, Bool.not_eq_true'] at h
  have h5 : beginsWith eqs5 (b ++ ['\n']) = false := by
    have := beginsWith_append_nl_false eqs5 (by decide) b [] h.2
    simpa using this
  simp only [bodyOk, Bool.and_eq_true, Bool.not_eq_true']
  constructor
  · simp only [noNlEqs, Bool.and_eq_true, Bool.not_eq_true']
    exact ⟨by simp [h5], noNlEqs_append_nl b h.1⟩
  · rfl

/-- Python `replace(".txt", "")` walks past any non-dot character. -/
theorem replTxt_cons_ne (c : Char) (cs : List Char) (h : c ≠ '.') :
    replTxt (c :: cs) = c :: replTxt cs := by
  rw [replTxt.eq_def]
  split
  · rename_i heq
    injection heq with h1 _
    exact absurd h1 h
  · rename_i c' cs' heq
    injection heq with h1 h2
    rw [h1, h2]
  · rename_i heq
    exact absurd heq (by simp)

/-- On a dot-free base name, `replace(".txt", "")` removes exactly the
extension. -/
theorem replTxt_append_txt (l : List Char) (h : ∀ c ∈ l, c ≠ '.') :
    replTxt (l ++ ".txt".data) = l := by
  induction l with
  | nil => rfl
  | cons c cs ih =>
    rw [List.cons_append, replTxt_cons_ne c _ (h c (List.mem_cons_self c cs)),
      ih (fun x hx => h x (List.mem_cons_of_mem _ hx))]

theorem nsInsert_perm (x : String) : ∀ l : List String, (nsInsert x l).Perm (x :: l) := by
  intro l
  induction l with
  | nil => exact List.Perm.refl _
  | cons y ys ih =>
    by_cases hlt : keyLtB (natural_sort_key y) (natural_sort_key x) = true
    · simp only [nsInsert, hlt, if_pos]
      exact (ih.cons y).trans (List.Perm.swap x y ys)
    · simp only [nsInsert, hlt, Bool.false_eq_true, if_neg, ite_false]
      exact List.Perm.refl _

theorem sortNat_perm : ∀ l : List String, (sortNat l).Perm l := by
  intro l
  induction l with
  | nil => exact List.Perm.refl _
  | cons x xs ih =>
    exact (nsInsert_perm x (sortNat xs)).trans (ih.cons x)

theorem mem_sortNat (x : String) (l : List String) : x ∈ sortNat l ↔ x ∈ l :=
  (sortNat_perm l).mem_iff

/-- A `page_<digits>.txt` file name passes the combiner filter. -/
theorem combineFilter_pageId (i : String) (h : isPageId i = true) :
    combineFilter (i ++ ".txt") = true := by
  unfold isPageId at h
  cases hlit : litP "page_".data i.data with
  | none => rw [hlit] at h; simp at h
  | some ds =>
    have hidata : i.data = "page_".data ++ ds := litP_eq_append _ _ _ hlit
    have h1 : beginsWith "page_".data (i ++ ".txt").data = true := by
      rw [String.data_append, hidata, List.append_assoc]
      exact beginsWith_append_self _ _
    have h2 : beginsWith (".txt".data.reverse) ((i ++ ".txt").data.reverse) = true := by
      rw [String.data_append, List.reverse_append]
      exact beginsWith_append_self _ _
    unfold combineFilter
    rw [h1, h2]
    rfl

/-- Generic assembly step: if each list element turns one combiner block
into one rendered block, the whole concatenation is the rendering. -/
theorem concatAll_map_renderBlock (g : String → String) (d2 b2 : String → String) :
    ∀ L : List String, (∀ f ∈ L, g f = renderBlock (d2 f) (b2 f)) →
      concatAll (L.map g) = renderBlocks (L.map (fun f => (d2 f, b2 f))) := by
  intro L
  induction L with
  | nil => intro _; rfl
  | cons f fl ih =>
    intro h
    simp only [List.map_cons, concatAll, renderBlocks]
    rw [h f (List.mem_cons_self f fl), ih (fun x hx => h x (List.mem_cons_of_mem _ hx))]

/-! ### Claim C8: combine/parse round trip -/

/-- C8: for a nonempty set of per-item outputs with `page_<digits>` ids
and bodies with no line beginning with `=====`, the combiner writes a
combined artifact, and re-parsing it with the Work-Item Source yields
exactly one item per combined file, in the combiner natural-sort
order, with the same id and the same trimmed body. -/
theorem c8_combine_parse_roundtrip (fs : FS)
    (hne : fs.outputs ≠ [])
    (h : ∀ p ∈ fs.outputs, isPageId p.1 = true ∧ bodyOk p.2.data = true) :
    ∃ c, create_combined_translation fs = some c ∧
      parse_ocr_content c = (combineFiles fs).map
        (fun f => (String.mk (replTxt f.data),
          pyStrip ((getA fs.outputs (String.mk (replTxt f.data))).getD ""))) := by
  have hfiles_mem : ∀ f ∈ combineFiles fs, ∃ p ∈ fs.outputs, f = p.1 ++ ".txt" := by
    intro f hf
    rw [combineFiles, mem_sortNat] at hf
    obtain ⟨hf1, _⟩ := List.mem_filter.mp hf
    obtain ⟨p, hp, hfp⟩ := List.mem_map.mp hf1
    exact ⟨p, hp, hfp.symm⟩
  have hprops : ∀ f ∈ combineFiles fs, ∃ dsc : List Char,
      dsc ≠ [] ∧ (∀ c ∈ dsc, c.isDigit = true) ∧
      replTxt f.data = "page_".data ++ dsc := by
    intro f hf
    obtain ⟨p, hp, rfl⟩ := hfiles_mem f hf
    have hpage := (h p hp).1
    unfold isPageId at hpage
    cases hlit : litP "page_".data p.1.data with
    | none => rw [hlit] at hpage; simp at hpage
    | some dsc =>
      rw [hlit] at hpage
      simp only [Bool.and_eq_true, Bool.not_eq_true', List.all_eq_true] at hpage
      have hdata : p.1.data = "page_".data ++ dsc := litP_eq_append _ _ _ hlit
      refine ⟨dsc, ?_, hpage.2, ?_⟩
      · intro hnil
        have := hpage.1
        rw [hnil] at this
        simp at this
      · rw [String.data_append]
        have hnodot : ∀ c ∈ p.1.data, c ≠ '.' := by
          rw [hdata]
          intro c hc
          rcases List.mem_append.mp hc with h5 | hd
          · have hfive : c ∈ ['p', 'a', 'g', 'e', '_'] := h5
            fin_cases hfive <;> decide
          · have hdigc := hpage.2 c hd
            intro hcon
            rw [hcon] at hdigc
            exact absurd hdigc (by decide)
        rw [replTxt_append_txt _ hnodot, hdata]
  have hfilter : (fs.outputs.map (fun p => p.1 ++ ".txt")).filter combineFilter =
      fs.outputs.map (fun p => p.1 ++ ".txt") := by
    apply List.filter_eq_self.mpr
    intro a ha
    obtain ⟨p, hp, hfp⟩ := List.mem_map.mp ha
    rw [← hfp]
    exact combineFilter_pageId p.1 (h p hp).1
  have hlen : (combineFiles fs).length = fs.outputs.length := by
    rw [combineFiles, hfilter, (sortNat_perm _).length_eq, List.length_map]
  have hfne : (combineFiles fs).isEmpty = false := by
    rw [Bool.eq_false_iff]
    intro hemp
    rw [List.isEmpty_iff] at hemp
    rw [hemp] at hlen
    exact hne (List.eq_nil_of_length_eq_zero hlen.symm)
  have hcc : create_combined_translation fs =
      some (concatAll ((combineFiles fs).map (combineBlock fs))) := by
    unfold create_combined_translation
    simp [hfne]
  refine ⟨_, hcc, ?_⟩
  have hblock : ∀ f ∈ combineFiles fs, combineBlock fs f =
      renderBlock (String.mk ((replTxt f.data).drop 5))
        ("\n" ++ (getA fs.outputs (String.mk (replTxt f.data))).getD "" ++ "\n") := by
    intro f hf
    obtain ⟨dsc, hdne, hdig, hrep⟩ := hprops f hf
    apply String.ext
    unfold combineBlock renderBlock
    have hdrop : (("page_".data ++ dsc).drop 5) = dsc := by
      have h5 : (5 : Nat) = ("page_".data).length := rfl
      rw [h5, List.drop_left]
    simp [String.data_append, hrep, hdrop, List.append_assoc,
      show ("\n" : String).data = ['\n'] from rfl,
      show ("\n\n" : String).data = ['\n', '\n'] from rfl,
      show (" =====\n" : String).data = " =====\n".data from rfl,
      show (" =====\n\n" : String).data = " =====\n".data ++ ['\n'] from rfl,
      show ("===== page_" : String).data = "===== ".data ++ "page_".data from rfl]
  have hconcat := concatAll_map_renderBlock (combineBlock fs)
    (fun f => String.mk ((replTxt f.data).drop 5))
    (fun f => "\n" ++ (getA fs.outputs (String.mk (replTxt f.data))).getD "" ++ "\n")
    (combineFiles fs) hblock
  rw [hconcat]
  have hhyp : ∀ b ∈ (combineFiles fs).map
      (fun f => (String.mk ((replTxt f.data).drop 5),
        "\n" ++ (getA fs.outputs (String.mk (replTxt f.data))).getD "" ++ "\n")),
      isPageDigits b.1 = true ∧ bodyOk b.2.data = true := by
    intro b hb
    obtain ⟨f, hf, hfb⟩ := List.mem_map.mp hb
    obtain ⟨dsc, hdne, hdig, hrep⟩ := hprops f hf
    rw [← hfb]
    constructor
    · show isPageDigits (String.mk ((replTxt f.data).drop 5)) = true
      have hdrop : (("page_".data ++ dsc).drop 5) = dsc := by
        have h5 : (5 : Nat) = ("page_".data).length := rfl
        rw [h5, List.drop_left]
      rw [hrep, hdrop]
      simp only [isPageDigits, Bool.and_eq_true, Bool.not_eq_true', List.all_eq_true]
      exact ⟨by simp [List.isEmpty_iff, hdne], hdig⟩
    · show bodyOk ("\n" ++ (getA fs.outputs (String.mk (replTxt f.data))).getD "" ++ "\n").data = true
      have hcon : bodyOk ((getA fs.outputs (String.mk (replTxt f.data))).getD "").data = true := by
        cases hg : getA fs.outputs (String.mk (replTxt f.data)) with
        | none => simp [hg]; decide
        | some v =>
          have hm := getA_some_mem _ _ _ hg
          simpa [hg] using (h _ hm).2
      have hpd : ("\n" ++ (getA fs.outputs (String.mk (replTxt f.data))).getD "" ++ "\n").data =
          '\n' :: (((getA fs.outputs (String.mk (replTxt f.data))).getD "").data ++ ['\n']) := by
        simp [String.data_append, show ("\n" : String).data = ['\n'] from rfl]
      rw [hpd]
      exact bodyOk_pad _ hcon
  rw [parse_renderBlocks _ hhyp, List.map_map]
  apply List.map_congr_left
  intro f hf
  obtain ⟨dsc, hdne, hdig, hrep⟩ := hprops f hf
  simp only [Function.comp]
  rw [pyStrip_pad]
  have hid : "page_" ++ String.mk ((replTxt f.data).drop 5) = String.mk (replTxt f.data) := by
    apply String.ext
    rw [String.data_append, hrep]
    have hdrop : (("page_".data ++ dsc).drop 5) = dsc := by
      have h5 : (5 : Nat) = ("page_".data).length := rfl
      rw [h5, List.drop_left]
    rw [show (String.mk (("page_".data ++ dsc).drop 5)).data =
      ("page_".data ++ dsc).drop 5 from rfl, hdrop]
  rw [hid]

/-- Witness for C8 on two stored outputs whose ids sort naturally. -/
theorem c8_combine_parse_roundtrip_witness :
    ∃ c, create_combined_translation
        ⟨[("page_10", "line a"), ("page_2", " line b ")], [], []⟩ = some c ∧
      parse_ocr_content c =
        (combineFiles ⟨[("page_10", "line a"), ("page_2", " line b ")], [], []⟩).map
          (fun f => (String.mk (replTxt f.data),
            pyStrip ((getA (⟨[("page_10", "line a"), ("page_2", " line b ")], [], []⟩ :
              FS).outputs (String.mk (replTxt f.data))).getD ""))) :=
  c8_combine_parse_roundtrip ⟨[("page_10", "line a"), ("page_2", " line b ")], [], []⟩
    (by decide) (by decide)

/-! ### Support for partial-failure isolation (claim C3) -/

theorem setA_absent {α : Type} :
    ∀ (l : List (String × α)) (k : String) (v : α), getA l k = none →
      setA l k v = l ++ [(k, v)] := by
  intro l
  induction l with
  | nil => intro k v _; rfl
  | cons p rest ih =>
    intro k v h
    by_cases hp : p.1 = k
    · rw [getA, if_pos hp] at h
      simp at h
    · rw [getA, if_neg hp] at h
      rw [setA, if_neg hp, ih k v h, List.cons_append]

theorem getA_append_left {α : Type} :
    ∀ (l l2 : List (String × α)) (k : String) (v : α), getA l k = some v →
      getA (l ++ l2) k = some v := by
  intro l
  induction l with
  | nil => intro l2 k v h; simp [getA] at h
  | cons p rest ih =>
    intro l2 k v h
    by_cases hp : p.1 = k
    · rw [getA, if_pos hp] at h
      rw [List.cons_append, getA, if_pos hp]
      exact h
    · rw [getA, if_neg hp] at h
      rw [List.cons_append, getA, if_neg hp]
      exact ih l2 k v h

theorem getA_append_none {α : Type} :
    ∀ (l l2 : List (String × α)) (k : String), getA l k = none →
      getA (l ++ l2) k = getA l2 k := by
  intro l
  induction l with
  | nil => intro l2 k _; rfl
  | cons p rest ih =>
    intro l2 k h
    by_cases hp : p.1 = k
    · rw [getA, if_pos hp] at h
      simp at h
    · rw [getA, if_neg hp] at h
      rw [List.cons_append, getA, if_neg hp]
      exact ih l2 k h

theorem getA_eq_none_iff {α : Type} :
    ∀ (l : List (String × α)) (k : String), getA l k = none ↔ k ∉ l.map Prod.fst := by
  intro l
  induction l with
  | nil => intro k; simp [getA]
  | cons p rest ih =>
    intro k
    by_cases hp : p.1 = k
    · rw [getA, if_pos hp]
      simp [hp]
    · rw [getA, if_neg hp]
      simp only [List.map_cons, List.mem_cons]
      rw [ih k]
      constructor
      · intro h1 h2
        rcases h2 with h2 | h2
        · exact hp h2.symm
        · exact h1 h2
      · intro h1
        exact fun h2 => h1 (Or.inr h2)

theorem getA_isSome_iff {α : Type} (l : List (String × α)) (k : String) :
    (getA l k).isSome = true ↔ k ∈ l.map Prod.fst := by
  rw [← not_iff_not]
  constructor
  · intro h1
    rw [← getA_eq_none_iff]
    cases hg : getA l k with
    | none => rfl
    | some v => rw [hg] at h1; simp at h1
  · intro h1
    rw [← getA_eq_none_iff] at h1
    rw [h1]
    simp

theorem map_fst_filter {α : Type} (q : String → Bool) :
    ∀ l : List (String × α),
      (l.filter (fun p => q p.1)).map Prod.fst = (l.map Prod.fst).filter q := by
  intro l
  induction l with
  | nil => rfl
  | cons p rest ih =>
    by_cases hq : q p.1 = true
    · simp only [List.filter_cons, List.map_cons, hq, if_pos, List.map_cons]
      rw [ih]
    · simp only [List.filter_cons, List.map_cons, hq, Bool.false_eq_true, if_neg, ite_false]
      rw [ih]

/-- Batch runs decompose along list concatenation. -/
theorem runBatch_append (tr : String → Except TransErr String) (force : Bool) :
    ∀ (l1 l2 : List (String × String)) (fs : FS),
      runBatch tr force (l1 ++ l2) fs =
        ((runBatch tr force l1 fs).1 ++
          (runBatch tr force l2 (runBatch tr force l1 fs).2).1,
          (runBatch tr force l2 (runBatch tr force l1 fs).2).2) := by
  intro l1
  induction l1 with
  | nil => intro l2 fs; rfl
  | cons q rest ih =>
    intro l2 fs
    obtain ⟨pid, txt⟩ := q
    simp only [List.cons_append, runBatch, List.append_eq]
    rw [ih]

/-- A batch over items that all either transform successfully or
already have their output artifact, run with `force = false`: every item
reports Skipped (when its artifact exists) or Completed (when fresh),
the fresh outputs are appended in order, and the error records are
untouched. -/
theorem runBatch_good (tr : String → Except TransErr String) :
    ∀ (its : List (String × String)) (fs : FS),
      (∀ p ∈ its, (∃ s, tr p.2 = Except.ok s) ∨ (getA fs.outputs p.1).isSome = true) →
      (its.map Prod.fst).Nodup →
      (runBatch tr false its fs).1 =
        its.map (goodRes (fun p => (getA fs.outputs p.1).isSome)) ∧
      (runBatch tr false its fs).2.outputs =
        fs.outputs ++ (its.filter (fun p => !(getA fs.outputs p.1).isSome)).map
          (fun p => (p.1, getOk (tr p.2))) ∧
      (runBatch tr false its fs).2.errors = fs.errors := by
  intro its
  induction its with
  | nil => intro fs _ _; exact ⟨rfl, by simp [runBatch], rfl⟩
  | cons q rest ih =>
    intro fs h hnd
    obtain ⟨pid, txt⟩ := q
    have hrest : ∀ p ∈ rest, (∃ s, tr p.2 = Except.ok s) ∨
        (getA fs.outputs p.1).isSome = true :=
      fun p hp => h p (List.mem_cons_of_mem _ hp)
    simp only [List.map_cons, List.nodup_cons] at hnd
    by_cases hpres : (getA fs.outputs pid).isSome = true
    · -- item skipped, filesystem unchanged
      have hskip : process_page (tr txt) pid false OutW.ok true fs =
          (⟨pid, St.skipped, false⟩, fs) := by
        simp [process_page, hpres]
      have hstep := ih fs hrest hnd.2
      have hfc : ((pid, txt) :: rest).filter (fun p => !(getA fs.outputs p.1).isSome) =
          rest.filter (fun p => !(getA fs.outputs p.1).isSome) := by
        rw [List.filter_cons]
        simp [hpres]
      simp only [runBatch, hskip]
      refine ⟨?_, ?_, hstep.2.2⟩
      · simp only [List.map_cons, goodRes, hpres, if_pos]
        rw [hstep.1]
      · rw [hfc, hstep.2.1]
    · -- item completed: the transform must succeed and the output is
      -- appended as a fresh file
      have hnone : getA fs.outputs pid = none := by
        cases hg : getA fs.outputs pid with
        | none => rfl
        | some v => rw [hg] at hpres; simp at hpres
      obtain ⟨s, hs⟩ : ∃ s, tr txt = Except.ok s := by
        rcases h (pid, txt) (List.mem_cons_self _ _) with hok | hp
        · exact hok
        · exact absurd hp hpres
      have hproc : process_page (tr txt) pid false OutW.ok true fs =
          (⟨pid, St.completed, true⟩,
            { fs with outputs := fs.outputs ++ [(pid, s)],
                      metas := addId fs.metas pid }) := by
        simp [process_page, hpres, hs, setA_absent _ _ _ hnone]
      set fs1 : FS := { fs with outputs := fs.outputs ++ [(pid, s)],
                                metas := addId fs.metas pid } with hfs1
      have hne1 : ∀ p ∈ rest, p.1 ≠ pid := by
        intro p hp hcon
        exact hnd.1 (hcon ▸ List.mem_map.mpr ⟨p, hp, rfl⟩)
      have hsame : ∀ p ∈ rest, getA fs1.outputs p.1 = getA fs.outputs p.1 := by
        intro p hp
        show getA (fs.outputs ++ [(pid, s)]) p.1 = getA fs.outputs p.1
        cases hg : getA fs.outputs p.1 with
        | some v => exact getA_append_left _ _ _ _ hg
        | none =>
          rw [getA_append_none _ _ _ hg]
          rw [getA, if_neg (fun hh => hne1 p hp hh.symm)]
          rfl
      have hrest1 : ∀ p ∈ rest, (∃ s2, tr p.2 = Except.ok s2) ∨
          (getA fs1.outputs p.1).isSome = true := by
        intro p hp
        rcases hrest p hp with hok | hpres2
        · exact Or.inl hok
        · right
          rw [hsame p hp]
          exact hpres2
      have hstep := ih fs1 hrest1 hnd.2
      simp only [runBatch, hproc]
      refine ⟨?_, ?_, ?_⟩
      · simp only [List.map_cons, goodRes, hpres, Bool.false_eq_true, if_neg, ite_false]
        rw [hstep.1]
        congr 1
        apply List.map_congr_left
        intro p hp
        simp [goodRes, hsame p hp]
      · rw [hstep.2.1]
        have hfc : ((pid, txt) :: rest).filter (fun p => !(getA fs.outputs p.1).isSome) =
            (pid, txt) :: rest.filter (fun p => !(getA fs.outputs p.1).isSome) := by
          rw [List.filter_cons]
          simp [hpres]
        rw [hfc]
        have hfc2 : rest.filter (fun p => !(getA fs1.outputs p.1).isSome) =
            rest.filter (fun p => !(getA fs.outputs p.1).isSome) :=
          List.filter_congr (fun p hp => by rw [hsame p hp])
        rw [hfc2]
        show fs.outputs ++ [(pid, s)] ++ _ = _
        rw [List.append_assoc, List.singleton_append, List.map_cons, hs]
        rfl
      · rw [hstep.2.2]

theorem goodRes_id (c : String × String → Bool) (p : String × String) :
    (goodRes c p).id = p.1 := by
  by_cases hc : c p = true <;> simp [goodRes, hc]

theorem goodRes_not_failed (c : String × String → Bool) (p : String × String) :
    (goodRes c p).status ≠ St.failed := by
  by_cases hc : c p = true <;> simp [goodRes, hc]

theorem filter_failed_goodRes (c : String × String → Bool)
    (its : List (String × String)) :
    ((its.map (goodRes c)).filter (fun r => r.status = St.failed)) = [] := by
  rw [List.filter_eq_nil_iff]
  intro r hr
  obtain ⟨p, _, hpr⟩ := List.mem_map.mp hr
  rw [← hpr]
  simp [goodRes_not_failed c p]

theorem count_cs_goodRes (c : String × String → Bool) :
    ∀ its : List (String × String),
      ((its.map (goodRes c)).filter (fun r => r.status = St.completed)).length +
        ((its.map (goodRes c)).filter (fun r => r.status = St.skipped)).length =
      its.length := by
  intro its
  induction its with
  | nil => rfl
  | cons p rest ih =>
    simp only [List.map_cons, List.filter_cons]
    by_cases hc : c p = true
    · simp only [goodRes, hc, if_pos]
      simp only [show ((⟨p.1, St.skipped, false⟩ : PResult).status = St.completed) = False by
          simp, show ((⟨p.1, St.skipped, false⟩ : PResult).status = St.skipped) = True by simp]
      simp only [decide_False, decide_True, Bool.false_eq_true, if_neg, ite_false, if_pos,
        ite_true, List.length_cons]
      omega
    · simp only [goodRes, hc, Bool.false_eq_true, if_neg, ite_false]
      simp only [show ((⟨p.1, St.completed, true⟩ : PResult).status = St.completed) = True by
          simp, show ((⟨p.1, St.completed, true⟩ : PResult).status = St.skipped) = False by simp]
      simp only [decide_False, decide_True, Bool.false_eq_true, if_neg, ite_false, if_pos,
        ite_true, List.length_cons]
      omega

theorem ids_of_goodRes (c : String × String → Bool) (its : List (String × String)) :
    (its.map (goodRes c)).map (fun r => r.id) = its.map Prod.fst := by
  rw [List.map_map]
  apply List.map_congr_left
  intro p _
  exact goodRes_id c p

/-- A `page_`-prefixed id keeps the combiner filter happy. -/
theorem litP_isSome_append (p : List Char) :
    ∀ (l t : List Char), (litP p l).isSome = true → (litP p (l ++ t)).isSome = true := by
  induction p with
  | nil => intro l t _; rfl
  | cons c cs ih =>
    intro l t h
    cases l with
    | nil => simp [litP] at h
    | cons x xs =>
      by_cases hx : x = c
      · rw [litP, if_pos hx] at h
        rw [List.cons_append, litP, if_pos hx]
        exact ih xs t h
      · rw [litP, if_neg hx] at h
        simp at h

theorem combineFilter_begins (i : String)
    (h : beginsWith "page_".data i.data = true) :
    combineFilter (i ++ ".txt") = true := by
  have h1 : beginsWith "page_".data (i ++ ".txt").data = true := by
    rw [String.data_append]
    exact litP_isSome_append _ _ _ h
  have h2 : beginsWith (".txt".data.reverse) ((i ++ ".txt").data.reverse) = true := by
    rw [String.data_append, List.reverse_append]
    exact beginsWith_append_self _ _
  unfold combineFilter
  rw [h1, h2]
  rfl

/-! ### Claim C3: partial-failure isolation

The claim as stated is false on one edge: `main` creates the combined
file only when `args.create_combined` is set AND this run completed at
least one page (line 280, `completed > 0`). In a batch where the one
fatal item fails and every other item is Skipped (their outputs already
exist), the requested combined output is not produced at all. The
amended claim adds the proviso that at least one non-failing item is
fresh (so the run completes it). The batch itself runs to completion by
construction (the model is a total function, mirroring the per-item
`except` that converts any transform error into a Failed status). -/

/-- Counterexample to C3 as stated: two items, the first already
translated (Skipped), the second always fatally failing; the combined
file was requested, a successful (skipped) item exists, yet no combined
output is produced because the run completed nothing. -/
theorem c3_counterexample_skipped_plus_failed :
    (run_main [("page_1", "t1"), ("page_2", "t2")]
        (fun t => if t = "t2" then Except.error (TransErr.otherErr "fatal")
          else Except.ok "good")
        false true ⟨[("page_1", "old")], ["page_1"], []⟩).2.2.2 = none ∧
    (run_main [("page_1", "t1"), ("page_2", "t2")]
        (fun t => if t = "t2" then Except.error (TransErr.otherErr "fatal")
          else Except.ok "good")
        false true ⟨[("page_1", "old")], ["page_1"], []⟩).1 =
      [⟨"page_1", St.skipped, false⟩, ⟨"page_2", St.failed, true⟩] := by
  constructor
  · decide
  · decide

/-- C3 amended: in a batch of `N = |A| + 1 + |B|` items with distinct
ids in which exactly the middle item always raises a fatal error (and
starts with no output artifact) while every other item transforms
successfully or is skipped, the batch runs to completion and reports a
full id-to-status map in input order, exactly 1 Failed and `N - 1`
Completed-or-Skipped; and — provided at least one non-failing item is
fresh, so the run completes something — the requested combined output
is produced and combines exactly the files of the `N - 1` non-failing
items. -/
theorem c3_partial_failure_isolation_amended
    (A B : List (String × String)) (badId badTxt : String) (e : TransErr)
    (tr : String → Except TransErr String) (fs0 : FS)
    (hnodup : ((A ++ (badId, badTxt) :: B).map Prod.fst).Nodup)
    (hbadtr : tr badTxt = Except.error e)
    (hbadfresh : getA fs0.outputs badId = none)
    (hgood : ∀ p ∈ A ++ B, (∃ s, tr p.2 = Except.ok s) ∨
      (getA fs0.outputs p.1).isSome = true)
    (houts : ∀ q ∈ fs0.outputs, q.1 ∈ (A ++ B).map Prod.fst)
    (houtnodup : (fs0.outputs.map Prod.fst).Nodup)
    (hpage : ∀ p ∈ A ++ B, beginsWith "page_".data p.1.data = true)
    (hfresh : ∃ p ∈ A ++ B, getA fs0.outputs p.1 = none) :
    (run_main (A ++ (badId, badTxt) :: B) tr false true fs0).2.2.1.results.map Prod.fst =
      (A ++ (badId, badTxt) :: B).map Prod.fst ∧
    (run_main (A ++ (badId, badTxt) :: B) tr false true fs0).2.2.1.failed = 1 ∧
    (run_main (A ++ (badId, badTxt) :: B) tr false true fs0).2.2.1.completed +
      (run_main (A ++ (badId, badTxt) :: B) tr false true fs0).2.2.1.skipped =
      A.length + B.length ∧
    (∃ c, (run_main (A ++ (badId, badTxt) :: B) tr false true fs0).2.2.2 = some c) ∧
    (combineFiles (run_main (A ++ (badId, badTxt) :: B) tr false true fs0).2.1).Perm
      ((A ++ B).map (fun p => p.1 ++ ".txt")) := by
  -- nodup bookkeeping
  have hmap : (A ++ (badId, badTxt) :: B).map Prod.fst =
      A.map Prod.fst ++ badId :: B.map Prod.fst := by simp
  rw [hmap] at hnodup
  obtain ⟨hAnd, hcb, hdisj⟩ := List.nodup_append.mp hnodup
  have hBnd : (B.map Prod.fst).Nodup := (List.nodup_cons.mp hcb).2
  have hbadB : badId ∉ B.map Prod.fst := (List.nodup_cons.mp hcb).1
  have hbadA : badId ∉ A.map Prod.fst :=
    fun hb => hdisj hb (List.mem_cons_self _ _)
  have hABdisj : ∀ a ∈ A.map Prod.fst, a ∉ B.map Prod.fst :=
    fun a ha hb => hdisj ha (List.mem_cons_of_mem _ hb)
  have hgoodA : ∀ p ∈ A, (∃ s, tr p.2 = Except.ok s) ∨
      (getA fs0.outputs p.1).isSome = true :=
    fun p hp => hgood p (List.mem_append_left _ hp)
  have hgoodB0 : ∀ p ∈ B, (∃ s, tr p.2 = Except.ok s) ∨
      (getA fs0.outputs p.1).isSome = true :=
    fun p hp => hgood p (List.mem_append_right _ hp)
  -- phase A
  have hA := runBatch_good tr A fs0 hgoodA hAnd
  -- the A phase leaves badId without an output
  have hbadA2 : getA (runBatch tr false A fs0).2.outputs badId = none := by
    rw [hA.2.1, getA_append_none _ _ _ hbadfresh]
    rw [getA_eq_none_iff]
    intro hmem
    rw [List.map_map] at hmem
    obtain ⟨p, hp, hpb⟩ := List.mem_map.mp hmem
    have hpA : p.1 = badId := hpb
    have := List.mem_filter.mp hp
    exact hbadA (hpA ▸ List.mem_map.mpr ⟨p, this.1, rfl⟩)
  -- the bad item fails and only adds its error record
  have hproc : process_page (tr badTxt) badId false OutW.ok true
      (runBatch tr false A fs0).2 =
      (⟨badId, St.failed, true⟩,
        { (runBatch tr false A fs0).2 with
            errors := addId (runBatch tr false A fs0).2.errors badId }) := by
    simp [process_page, hbadA2, hbadtr]
  -- phase B state
  have hfsB : ({ (runBatch tr false A fs0).2 with
      errors := addId (runBatch tr false A fs0).2.errors badId } : FS).outputs =
      (runBatch tr false A fs0).2.outputs := rfl
  have hsameB : ∀ p ∈ B,
      getA (runBatch tr false A fs0).2.outputs p.1 = getA fs0.outputs p.1 := by
    intro p hp
    rw [hA.2.1]
    cases hg : getA fs0.outputs p.1 with
    | some v => exact getA_append_left _ _ _ _ hg
    | none =>
      rw [getA_append_none _ _ _ hg, getA_eq_none_iff]
      intro hmem
      rw [List.map_map] at hmem
      obtain ⟨q, hq, hqb⟩ := List.mem_map.mp hmem
      have hq2 := List.mem_filter.mp hq
      exact hABdisj p.1 (hqb ▸ List.mem_map.mpr ⟨q, hq2.1, rfl⟩)
        (List.mem_map.mpr ⟨p, hp, rfl⟩)
  have hgoodB : ∀ p ∈ B, (∃ s, tr p.2 = Except.ok s) ∨
      (getA ({ (runBatch tr false A fs0).2 with
        errors := addId (runBatch tr false A fs0).2.errors badId } : FS).outputs p.1).isSome =
        true := by
    intro p hp
    rcases hgoodB0 p hp with hok | hpres
    · exact Or.inl hok
    · right
      rw [hfsB, hsameB p hp]
      exact hpres
  have hB := runBatch_good tr B
    { (runBatch tr false A fs0).2 with
        errors := addId (runBatch tr false A fs0).2.errors badId } hgoodB hBnd
  -- assemble the run
  have hsplit := runBatch_append tr false A ((badId, badTxt) :: B) fs0
  have hcons : runBatch tr false ((badId, badTxt) :: B) (runBatch tr false A fs0).2 =
      ((⟨badId, St.failed, true⟩ : PResult) ::
        (runBatch tr false B { (runBatch tr false A fs0).2 with
          errors := addId (runBatch tr false A fs0).2.errors badId }).1,
        (runBatch tr false B { (runBatch tr false A fs0).2 with
          errors := addId (runBatch tr false A fs0).2.errors badId }).2) := by
    simp only [runBatch, hproc]
  -- the full result list and final filesystem
  have hres : (runBatch tr false (A ++ (badId, badTxt) :: B) fs0).1 =
      A.map (goodRes (fun p => (getA fs0.outputs p.1).isSome)) ++
        (⟨badId, St.failed, true⟩ : PResult) ::
        B.map (goodRes (fun p => (getA fs0.outputs p.1).isSome)) := by
    rw [hsplit, hcons]
    simp only
    rw [hA.1, hB.1]
    congr 2
    apply List.map_congr_left
    intro p hp
    simp [goodRes, hfsB, hsameB p hp]
  have hout2 : (runBatch tr false (A ++ (badId, badTxt) :: B) fs0).2.outputs =
      fs0.outputs ++
        ((A.filter (fun p => !(getA fs0.outputs p.1).isSome)).map
          (fun p => (p.1, getOk (tr p.2))) ++
        (B.filter (fun p => !(getA fs0.outputs p.1).isSome)).map
          (fun p => (p.1, getOk (tr p.2)))) := by
    rw [hsplit, hcons]
    simp only
    rw [hB.2.1, hfsB, hA.2.1]
    rw [List.append_assoc]
    congr 2
    apply congrArg
    apply List.filter_congr
    intro p hp
    rw [show getA (fs0.outputs ++
      (A.filter (fun p => !(getA fs0.outputs p.1).isSome)).map
        (fun p => (p.1, getOk (tr p.2)))) p.1 = getA fs0.outputs p.1 by
      rw [← hA.2.1]; exact hsameB p hp]
  -- keys of the final outputs are exactly the good ids
  have hkeys : ((runBatch tr false (A ++ (badId, badTxt) :: B) fs0).2.outputs.map
      Prod.fst).Perm ((A ++ B).map Prod.fst) := by
    rw [hout2]
    simp only [List.map_append, List.map_map]
    have hmf : ∀ (L : List (String × String)),
        ((L.filter (fun p => !(getA fs0.outputs p.1).isSome)).map
          (Prod.fst ∘ fun p => (p.1, getOk (tr p.2)))) =
        (L.map Prod.fst).filter (fun id => !(getA fs0.outputs id).isSome) := by
      intro L
      have : (Prod.fst ∘ fun p : String × String => (p.1, getOk (tr p.2))) =
          (Prod.fst : String × String → String) := rfl
      rw [this]
      exact map_fst_filter (fun id => !(getA fs0.outputs id).isSome) L
    rw [hmf A, hmf B, ← List.filter_append, ← List.map_append]
    have hperm0 : (fs0.outputs.map Prod.fst).Perm
        (((A ++ B).map Prod.fst).filter (fun id => (getA fs0.outputs id).isSome)) := by
      rw [List.perm_ext_iff_of_nodup houtnodup
        (List.Nodup.filter _ ?nd)]
      case nd =>
        have hsub : ((A ++ B).map Prod.fst).Sublist
            (A.map Prod.fst ++ badId :: B.map Prod.fst) := by
          rw [List.map_append]
          exact (List.sublist_cons_self badId (B.map Prod.fst)).append_left _
        exact hsub.nodup hnodup
      intro a
      constructor
      · intro ha
        rw [List.mem_filter]
        obtain ⟨q, hq, hqa⟩ := List.mem_map.mp ha
        refine ⟨hqa ▸ houts q hq, ?_⟩
        rw [getA_isSome_iff]
        exact ha
      · intro ha
        have := (List.mem_filter.mp ha).2
        rw [getA_isSome_iff] at this
        exact this
    exact (hperm0.append_right _).trans (List.filter_append_perm _ _)
  -- summary pieces
  have hsummary : (run_main (A ++ (badId, badTxt) :: B) tr false true fs0).2.2.1 =
      summarize (A ++ (badId, badTxt) :: B)
        (runBatch tr false (A ++ (badId, badTxt) :: B) fs0).1 := rfl
  -- a fresh good item completes, so the completed count is positive
  obtain ⟨pf, hpfAB, hpffresh⟩ := hfresh
  have hpfcond : (getA fs0.outputs pf.1).isSome = false := by
    rw [hpffresh]; rfl
  have hcompmem : (⟨pf.1, St.completed, true⟩ : PResult) ∈
      (runBatch tr false (A ++ (badId, badTxt) :: B) fs0).1 := by
    rw [hres]
    have hgr : goodRes (fun p => (getA fs0.outputs p.1).isSome) pf =
        ⟨pf.1, St.completed, true⟩ := by
      simp [goodRes, hpfcond]
    rcases List.mem_append.mp hpfAB with hside | hside
    · exact List.mem_append_left _ (List.mem_map.mpr ⟨pf, hside, hgr⟩)
    · exact List.mem_append_right _
        (List.mem_cons_of_mem _ (List.mem_map.mpr ⟨pf, hside, hgr⟩))
  have hpos : 0 < (summarize (A ++ (badId, badTxt) :: B)
      (runBatch tr false (A ++ (badId, badTxt) :: B) fs0).1).completed := by
    show 0 < ((runBatch tr false (A ++ (badId, badTxt) :: B) fs0).1.filter
      (fun r => r.status = St.completed)).length
    exact List.length_pos_of_mem (List.mem_filter.mpr ⟨hcompmem, by simp⟩)
  -- the combined-file gate opens
  have hcombeq : (run_main (A ++ (badId, badTxt) :: B) tr false true fs0).2.2.2 =
      create_combined_translation
        (runBatch tr false (A ++ (badId, badTxt) :: B) fs0).2 := by
    show (if true && decide (0 < (summarize (A ++ (badId, badTxt) :: B)
        (runBatch tr false (A ++ (badId, badTxt) :: B) fs0).1).completed)
      then create_combined_translation
        (runBatch tr false (A ++ (badId, badTxt) :: B) fs0).2
      else none) = _
    rw [decide_eq_true hpos]
    rfl
  -- the combiner file list is exactly the good items
  have hfa : (((runBatch tr false (A ++ (badId, badTxt) :: B) fs0).2.outputs.map
      (fun p => p.1 ++ ".txt")).filter combineFilter) =
      (runBatch tr false (A ++ (badId, badTxt) :: B) fs0).2.outputs.map
        (fun p => p.1 ++ ".txt") := by
    apply List.filter_eq_self.mpr
    intro x hx
    obtain ⟨q, hq, hqx⟩ := List.mem_map.mp hx
    rw [← hqx]
    apply combineFilter_begins
    have hqkeys : q.1 ∈ (runBatch tr false (A ++ (badId, badTxt) :: B) fs0).2.outputs.map
        Prod.fst := List.mem_map.mpr ⟨q, hq, rfl⟩
    have hqgood : q.1 ∈ (A ++ B).map Prod.fst := hkeys.mem_iff.mp hqkeys
    obtain ⟨p, hpAB2, hpq⟩ := List.mem_map.mp hqgood
    rw [← hpq]
    exact hpage p hpAB2
  have hperm5 : (combineFiles
      (runBatch tr false (A ++ (badId, badTxt) :: B) fs0).2).Perm
      ((A ++ B).map (fun p => p.1 ++ ".txt")) := by
    rw [combineFiles, hfa]
    refine (sortNat_perm _).trans ?_
    have hmm2 : (runBatch tr false (A ++ (badId, badTxt) :: B) fs0).2.outputs.map
        (fun p => p.1 ++ ".txt") =
        ((runBatch tr false (A ++ (badId, badTxt) :: B) fs0).2.outputs.map
          Prod.fst).map (fun id => id ++ ".txt") := by
      rw [List.map_map]
      rfl
    rw [hmm2]
    refine (hkeys.map _).trans ?_
    rw [List.map_map]
    exact List.Perm.refl _
  have hfne2 : (combineFiles
      (runBatch tr false (A ++ (badId, badTxt) :: B) fs0).2).isEmpty = false := by
    rw [Bool.eq_false_iff]
    intro hemp
    rw [List.isEmpty_iff] at hemp
    have hlen0 := hperm5.length_eq
    rw [hemp] at hlen0
    have hmem : (pf.1 ++ ".txt") ∈ (A ++ B).map (fun p => p.1 ++ ".txt") :=
      List.mem_map.mpr ⟨pf, hpfAB, rfl⟩
    have hlenpos := List.length_pos_of_mem hmem
    simp only [List.length_nil] at hlen0
    omega
  refine ⟨?_, ?_, ?_, ?_, ?_⟩
  · -- full id-to-status map in input order
    rw [hsummary]
    show (((runBatch tr false (A ++ (badId, badTxt) :: B) fs0).1.map
      (fun r => (r.id, r.status))).map Prod.fst) = _
    rw [List.map_map, hres]
    simp only [List.map_append, List.map_cons]
    rw [show (Prod.fst ∘ fun r : PResult => (r.id, r.status)) =
      (fun r : PResult => r.id) from rfl]
    rw [ids_of_goodRes, ids_of_goodRes]
  · -- exactly one Failed
    rw [hsummary]
    show ((runBatch tr false (A ++ (badId, badTxt) :: B) fs0).1.filter
      (fun r => r.status = St.failed)).length = 1
    rw [hres, List.filter_append, List.filter_cons]
    rw [filter_failed_goodRes, filter_failed_goodRes]
    simp
  · -- N - 1 Completed or Skipped
    have hcA := count_cs_goodRes (fun p => (getA fs0.outputs p.1).isSome) A
    have hcB := count_cs_goodRes (fun p => (getA fs0.outputs p.1).isSome) B
    rw [hsummary]
    show ((runBatch tr false (A ++ (badId, badTxt) :: B) fs0).1.filter
        (fun r => r.status = St.completed)).length +
      ((runBatch tr false (A ++ (badId, badTxt) :: B) fs0).1.filter
        (fun r => r.status = St.skipped)).length = A.length + B.length
    rw [hres]
    simp only [List.filter_append, List.filter_cons]
    simp only [show ((⟨badId, St.failed, true⟩ : PResult).status = St.completed) = False by
        simp, show ((⟨badId, St.failed, true⟩ : PResult).status = St.skipped) = False by simp,
      decide_False, Bool.false_eq_true, if_neg, ite_false, List.length_append]
    omega
  · -- the requested combined artifact exists
    rw [hcombeq]
    unfold create_combined_translation
    simp only [hfne2, Bool.false_eq_true, if_neg, ite_false]
    exact ⟨_, rfl⟩
  · -- and combines exactly the good items
    exact hperm5

/-- Witness for the amended C3: a three-item batch — one fresh item
that completes, one item that always fails fatally, one already
translated item that is skipped — reports one Failed and produces the
requested combined output. -/
theorem c3_partial_failure_isolation_amended_witness :
    (run_main ([("page_1", "t1")] ++ ("page_2", "tbad") :: [("page_3", "t3")])
        (fun t => if t = "tbad" then Except.error (TransErr.otherErr "boom")
          else Except.ok "T")
        false true ⟨[("page_3", "old")], [], []⟩).2.2.1.failed = 1 ∧
    (∃ c, (run_main ([("page_1", "t1")] ++ ("page_2", "tbad") :: [("page_3", "t3")])
        (fun t => if t = "tbad" then Except.error (TransErr.otherErr "boom")
          else Except.ok "T")
        false true ⟨[("page_3", "old")], [], []⟩).2.2.2 = some c) := by
  have h := c3_partial_failure_isolation_amended [("page_1", "t1")] [("page_3", "t3")]
    "page_2" "tbad" (TransErr.otherErr "boom")
    (fun t => if t = "tbad" then Except.error (TransErr.otherErr "boom")
      else Except.ok "T")
    ⟨[("page_3", "old")], [], []⟩
    (by decide) rfl rfl
    (by
      intro p hp
      simp only [List.singleton_append, List.mem_cons, List.not_mem_nil, or_false] at hp
      rcases hp with rfl | rfl
      · exact Or.inl ⟨"T", rfl⟩
      · right; decide)
    (by
      intro q hq
      simp only [List.mem_singleton] at hq
      subst hq
      decide)
    (by decide)
    (by
      intro p hp
      simp only [List.singleton_append, List.mem_cons, List.not_mem_nil, or_false] at hp
      rcases hp with rfl | rfl
      · decide
      · decide)
    ⟨("page_1", "t1"), by decide, rfl⟩
  exact ⟨h.2.1, h.2.2.2.1⟩

end IbnArabi
